import Mathlib

/-!
Verification development for the ZoKrates intermediate-representation
pipeline: the flat IR (`zokrates_ast/src/flat/mod.rs`), the typed-AST
constant propagator (`zokrates_core/src/static_analysis/propagation.rs`),
the directive optimiser (`zokrates_core/src/optimizer/directive.rs`) and
the R1CS lowering with its byte serialisation
(`zokrates_libsnark/src/lib.rs`).

Conventions of the embedding:
* machine integers (`u128`, `usize`, `i32`) are modelled as `Nat` with
  explicit `% 2 ^ w` where the source reduces modulo a bitwidth;
* Rust panics (failed `assert!`, `unwrap` of `None`, division by zero)
  are modelled by the `Failure.panic` value of an `Except` monad, kept
  distinct from the propagator's own `Error` enum (`Failure.fail`);
* `Span` values are opaque (`Nat`); expression nodes carry
  `Option Span` exactly where the source structs do, because the
  source's derived `PartialEq`/`PartialOrd` instances include the span
  field and several folding rules compare whole nodes;
* hash maps keyed by identifiers are modelled as association lists with
  overwrite-on-insert, which matches the observable `get`/`insert`/
  `remove` behaviour used by the source.
-/

namespace ZoKrates

/-- Opaque source span (`common::Span { file, start, end }`); only its
decidable equality and total order are relevant to the embedding. -/
abbrev Span := Nat

/-! ## Flat IR variables (`zokrates_ast::common::Variable`)

Modelled from the spec: the `common::Variable` module is not under
`src/`.  Spec §3.2: an opaque identifier with two distinguished
constructors `one()` (the constant-1 wire) and `public(i)` (the i-th
public output wire); all other variables are created by upstream passes.
-/

inductive Variable where
  | one : Variable
  | public (i : Nat) : Variable
  | var (n : Nat) : Variable
deriving DecidableEq, Repr

/-! ## Flat expressions (`zokrates_ast/src/flat/mod.rs`, lines 254-349)

`FlatExpression<T>` is
`{ Number(ValueExpression<T>), Identifier(IdentifierExpression<Variable>),
   Add/Sub/Mult(BinaryExpression<_, Self, Self, Self>) }`.
`ValueExpression`, `IdentifierExpression` and `BinaryExpression`
(`common/expressions.rs`) each carry a `span : Option<Span>` field next
to their payload; the constructors here flatten those structs into the
variant, keeping the span first.  The field payload `T` is modelled as
`Nat` (its value is never inspected by the functions below). -/

inductive FlatExpression where
  | Number (span : Option Span) (value : Nat)
  | Identifier (span : Option Span) (id : Variable)
  | Add (span : Option Span) (left right : FlatExpression)
  | Sub (span : Option Span) (left right : FlatExpression)
  | Mult (span : Option Span) (left right : FlatExpression)
deriving DecidableEq, Repr

namespace FlatExpression

/-- `FlatExpression::apply_substitution` (flat/mod.rs lines 319-328),
with the helper impls at lines 293-308: a `Number` is returned as is, an
`Identifier` is rewritten through `substitution.get(v).unwrap_or(v)`
keeping its span, and a binary node rebuilds both children and restores
its own span (`Self::new(left, right).span(self.span)`).  The
`HashMap<Variable, Variable>` is modelled as `Variable → Option Variable`. -/
def apply_substitution (substitution : Variable → Option Variable) :
    FlatExpression → FlatExpression
  | Number sp v => Number sp v
  | Identifier sp id => Identifier sp ((substitution id).getD id)
  | Add sp l r =>
      Add sp (apply_substitution substitution l) (apply_substitution substitution r)
  | Sub sp l r =>
      Sub sp (apply_substitution substitution l) (apply_substitution substitution r)
  | Mult sp l r =>
      Mult sp (apply_substitution substitution l) (apply_substitution substitution r)

/-- `FlatExpression::is_linear` (flat/mod.rs lines 331-349): `Number`
and `Identifier` are linear, `Add`/`Sub` of linear operands are linear,
and `Mult` is linear exactly when its operands match
`(Number, Number) | (Number, Identifier) | (Identifier, Number)`. -/
def is_linear : FlatExpression → Bool
  | Number _ _ => true
  | Identifier _ _ => true
  | Add _ l r => l.is_linear && r.is_linear
  | Sub _ l r => l.is_linear && r.is_linear
  | Mult _ l r =>
      match l, r with
      | Number _ _, Number _ _ => true
      | Number _ _, Identifier _ _ => true
      | Identifier _ _, Number _ _ => true
      | _, _ => false

end FlatExpression

/-- C4: linearity is preserved by substitution: for every flat
expression `e` and every substitution map `σ` from variables to
variables, if `is_linear e` holds then
`is_linear (e.apply_substitution σ)` holds as well. -/
theorem C4_is_linear_apply_substitution
    (σ : Variable → Option Variable) (e : FlatExpression)
    (h : e.is_linear = true) :
    (e.apply_substitution σ).is_linear = true := by
  induction e with
  | Number sp v => rfl
  | Identifier sp id => rfl
  | Add sp l r ihl ihr =>
      simp only [FlatExpression.is_linear, Bool.and_eq_true] at h
      simp only [FlatExpression.apply_substitution, FlatExpression.is_linear,
        Bool.and_eq_true]
      exact ⟨ihl h.1, ihr h.2⟩
  | Sub sp l r ihl ihr =>
      simp only [FlatExpression.is_linear, Bool.and_eq_true] at h
      simp only [FlatExpression.apply_substitution, FlatExpression.is_linear,
        Bool.and_eq_true]
      exact ⟨ihl h.1, ihr h.2⟩
  | Mult sp l r ihl ihr =>
      cases l <;> cases r <;>
        simp only [FlatExpression.is_linear, FlatExpression.apply_substitution] at h ⊢ <;>
        exact h

/-- C4 witness: the linear expression `(3 * x) + (y - 2)` stays linear
after substituting `x ↦ z`. -/
theorem C4_is_linear_apply_substitution_witness :
    (FlatExpression.Add none
        (FlatExpression.Mult none (FlatExpression.Number none 3)
          (FlatExpression.Identifier none (Variable.var 0)))
        (FlatExpression.Sub none (FlatExpression.Identifier none (Variable.var 1))
          (FlatExpression.Number none 2))).is_linear = true ∧
    ((FlatExpression.Add none
        (FlatExpression.Mult none (FlatExpression.Number none 3)
          (FlatExpression.Identifier none (Variable.var 0)))
        (FlatExpression.Sub none (FlatExpression.Identifier none (Variable.var 1))
          (FlatExpression.Number none 2))).apply_substitution
      (fun v => if v = Variable.var 0 then some (Variable.var 7) else none)).is_linear
      = true :=
  ⟨by decide,
    C4_is_linear_apply_substitution
      (fun v => if v = Variable.var 0 then some (Variable.var 7) else none) _
      (by decide)⟩

/-! ## Typed AST fragment (`zokrates_ast::typed`)

The propagator (`zokrates_core/src/static_analysis/propagation.rs`)
operates on the typed AST.  The fragment embedded here covers unsigned
integer expressions (`UExpressionInner`: `Value`, `Identifier`, `Add`,
`Sub`, `FloorSub`, `Mult`, `Div`, `Rem`) and boolean expressions
(`Value`, `Identifier`, `UintLt`, the generic equality, `And`, `Or`,
`Not`), together with the statements `Definition`, `Assertion`, `For`,
`PushCallLog` and `PopCallLog`.  A `UExpression { bitwidth, inner }` and
its span-carrying inner node are merged into one constructor carrying
`(bitwidth, span, payload)`; `annotate` (re-tag the bitwidth) and
`into_inner` (drop it) of the source become an update of the bitwidth
component. -/

/-- Typed-AST identifier (`Identifier<'ast>`), opaque to the embedding. -/
abbrev Ident := Nat

/-- Modelled from the spec: `UBitwidth` lives in the missing
`zokrates_ast::typed` module; §3.7 fixes the unsigned widths 8/16/32/64. -/
inductive UBitwidth where
  | b8 | b16 | b32 | b64
deriving DecidableEq, Repr

/-- Numeric value of a bitwidth (`UBitwidth::to_usize`). -/
def UBitwidth.toNat : UBitwidth → Nat
  | .b8 => 8
  | .b16 => 16
  | .b32 => 32
  | .b64 => 64

/-- Typed unsigned-integer expression: one constructor per
`UExpressionInner` variant of the fragment, each fused with the
`bitwidth` of the enclosing `UExpression` and the `span` of the variant
payload (`UValueExpression` / `IdentifierExpression` /
`BinaryExpression` / `UnaryExpression`). -/
inductive UExpr where
  | Value (bitwidth : UBitwidth) (span : Option Span) (v : Nat)
  | Identifier (bitwidth : UBitwidth) (span : Option Span) (id : Ident)
  | Add (bitwidth : UBitwidth) (span : Option Span) (left right : UExpr)
  | Sub (bitwidth : UBitwidth) (span : Option Span) (left right : UExpr)
  | FloorSub (bitwidth : UBitwidth) (span : Option Span) (left right : UExpr)
  | Mult (bitwidth : UBitwidth) (span : Option Span) (left right : UExpr)
  | Div (bitwidth : UBitwidth) (span : Option Span) (left right : UExpr)
  | Rem (bitwidth : UBitwidth) (span : Option Span) (left right : UExpr)
deriving DecidableEq, Repr

/-- The `bitwidth` field of the enclosing `UExpression`. -/
def UExpr.bitwidth : UExpr → UBitwidth
  | .Value w _ _ => w
  | .Identifier w _ _ => w
  | .Add w _ _ _ => w
  | .Sub w _ _ _ => w
  | .FloorSub w _ _ _ => w
  | .Mult w _ _ _ => w
  | .Div w _ _ _ => w
  | .Rem w _ _ _ => w

/-- `e.into_inner().annotate(w)`: keep the node, re-tag its bitwidth. -/
def UExpr.annotate : UExpr → UBitwidth → UExpr
  | .Value _ sp v, w => .Value w sp v
  | .Identifier _ sp id, w => .Identifier w sp id
  | .Add _ sp l r, w => .Add w sp l r
  | .Sub _ sp l r, w => .Sub w sp l r
  | .FloorSub _ sp l r, w => .FloorSub w sp l r
  | .Mult _ sp l r, w => .Mult w sp l r
  | .Div _ sp l r, w => .Div w sp l r
  | .Rem _ sp l r, w => .Rem w sp l r

/-- Typed boolean expression fragment (`BooleanExpression`).  `UintEq`
is the `EqExpression<UExpression, _>` instance of the generic equality. -/
inductive BExpr where
  | Value (span : Option Span) (v : Bool)
  | Identifier (span : Option Span) (id : Ident)
  | UintLt (span : Option Span) (left right : UExpr)
  | UintEq (span : Option Span) (left right : UExpr)
  | And (span : Option Span) (left right : BExpr)
  | Or (span : Option Span) (left right : BExpr)
  | Not (span : Option Span) (inner : BExpr)
deriving DecidableEq, Repr

/-- `TypedExpression`, restricted to the two scalar arms of the fragment. -/
inductive TypedExpression where
  | Uint (e : UExpr)
  | Boolean (e : BExpr)
deriving DecidableEq, Repr

/-- Concrete type of a fragment expression (`Type::Uint` / `Type::Boolean`);
`ConcreteType::try_from` always succeeds on these, so the propagator's
type comparisons are always performed. -/
inductive Ty where
  | uint (w : UBitwidth)
  | boolean
deriving DecidableEq, Repr

/-- `get_type` of a fragment expression. -/
def TypedExpression.get_type : TypedExpression → Ty
  | .Uint e => .uint e.bitwidth
  | .Boolean _ => .boolean

/-- Modelled from the spec: `Constant::is_constant` lives in the missing
`zokrates_ast::typed` module.  §3.7: a constant expression is one whose
subtree contains only literal values; for the scalar fragment that is
exactly a literal `Value` node. -/
def UExpr.is_constant : UExpr → Bool
  | .Value _ _ _ => true
  | _ => false

/-- Modelled from the spec: boolean instance of `is_constant` (see
`UExpr.is_constant`). -/
def BExpr.is_constant : BExpr → Bool
  | .Value _ _ => true
  | _ => false

/-- `is_constant` on `TypedExpression`. -/
def TypedExpression.is_constant : TypedExpression → Bool
  | .Uint e => e.is_constant
  | .Boolean e => e.is_constant

/-- Modelled from the spec: `into_canonical_constant` lives in the
missing `zokrates_ast::typed` module.  The glossary defines the
canonical constant form as the unique representative of a constant
expression under structural equality; since the derived structural
equality of this code base includes spans, the canonical literal is the
span-free `Value` node.  Non-constant expressions are returned
unchanged (the propagator only applies this to folded constants). -/
def UExpr.into_canonical_constant : UExpr → UExpr
  | .Value w _ v => .Value w none v
  | e => e

/-- Boolean instance of `into_canonical_constant` (see
`UExpr.into_canonical_constant`). -/
def BExpr.into_canonical_constant : BExpr → BExpr
  | .Value _ v => .Value none v
  | e => e

/-- `into_canonical_constant` on `TypedExpression`. -/
def TypedExpression.into_canonical_constant : TypedExpression → TypedExpression
  | .Uint e => .Uint e.into_canonical_constant
  | .Boolean e => .Boolean e.into_canonical_constant

/-! ## The propagator's error and failure model

`Error` is the enum of propagation.rs lines 26-33 (string payloads
elided; `OutOfBounds` keeps its `(index, size)` payload).  `Failure`
additionally distinguishes Rust panics — failed `assert!`, `unwrap` of
`None`, `unreachable!`, division by zero — which are *not* values of
the propagator's `Error` type. -/

inductive Error where
  | typeError
  | assertionFailed
  | valueTooLarge
  | outOfBounds (index size : Nat)
  | nonConstantExponent
deriving DecidableEq, Repr

inductive Failure where
  | panic
  | fail (e : Error)
deriving DecidableEq, Repr

/-- The propagator's `Constants` map
(`HashMap<Identifier, TypedExpression>`), as an association list with
overwrite-on-insert. -/
abbrev Constants := List (Ident × TypedExpression)

/-- `constants.get(&id)`. -/
def lookupConst (σ : Constants) (id : Ident) : Option TypedExpression :=
  (σ.find? (fun p => p.1 = id)).map (·.2)

/-- Map without the entry for `id`. -/
def eraseConst (σ : Constants) (id : Ident) : Constants :=
  σ.filter (fun p => p.1 ≠ id)

/-- `constants.insert(id, e)` (overwrite), dropping the returned old
value — call sites that inspect it use `lookupConst` first. -/
def insertConst (σ : Constants) (id : Ident) (e : TypedExpression) : Constants :=
  (id, e) :: eraseConst σ id

/-- `constants.remove(&id)`: the removed value and the shrunk map. -/
def removeConst (σ : Constants) (id : Ident) :
    Option TypedExpression × Constants :=
  (lookupConst σ id, eraseConst σ id)

/-- The wrapping 128-bit subtraction `u128::wrapping_sub`. -/
def wrapping_sub128 (a b : Nat) : Nat :=
  (a + 2 ^ 128 - b % 2 ^ 128) % 2 ^ 128

/-! `Propagator::fold_uint_expression_inner` (propagation.rs lines
546-782, restricted to the fragment's variants) fused with the default
`fold_uint_expression` wrapper, which refolds the inner node and keeps
the expression's bitwidth.  The source computes `u128` arithmetic and
then reduces `% 2^w`; since `w ∈ {8,16,32,64}` divides 128, the wrapped
`u128` result reduced mod `2^w` equals the plain `Nat` result reduced
mod `2^w`, which is how `Add`/`Mult` are written below (`Sub` keeps the
explicit `wrapping_sub`).  `Value` nodes fall through to the default
folder (identity); `Identifier` nodes go through the overridden
`fold_identifier_expression` (lines 1065-1076), substituting the stored
constant — `E::from(..).unwrap()` panics when the stored expression is
not a uint. -/

/-! Each `fold_*_case` function below is one `match` of
`fold_uint_expression_inner` (propagation.rs lines 546-782), lifted out
so that the folding lemmas can address the arms one operator at a time;
`fold_uint_expression` folds both children first, exactly as the source
does with `self.fold_uint_expression(*e.left)?.into_inner()`. -/

def fold_add_case (w : UBitwidth) (l' r' : UExpr) : Except Failure UExpr :=
  match l', r' with
  | .Value _ _ v1, .Value _ _ v2 =>
      .ok (.Value w none ((v1 + v2) % 2 ^ w.toNat))
  | e, .Value _ _ v
  | .Value _ _ v, e =>
      if v = 0 then .ok (e.annotate w)
      else .ok (.Add w none (e.annotate w) (.Value w none v))
  | e1, e2 => .ok (.Add w none (e1.annotate w) (e2.annotate w))

def fold_sub_case (w : UBitwidth) (l' r' : UExpr) : Except Failure UExpr :=
  match l', r' with
  | .Value _ _ v1, .Value _ _ v2 =>
      .ok (.Value w none (wrapping_sub128 v1 v2 % 2 ^ w.toNat))
  | e, .Value _ _ v =>
      if v = 0 then .ok (e.annotate w)
      else .ok (.Sub w none (e.annotate w) (.Value w none v))
  | e1, e2 => .ok (.Sub w none (e1.annotate w) (e2.annotate w))

def fold_floor_sub_case (w : UBitwidth) (l' r' : UExpr) : Except Failure UExpr :=
  match l', r' with
  | .Value _ _ v1, .Value _ _ v2 =>
      .ok (.Value w none ((v1 - v2) % 2 ^ w.toNat))
  | e, .Value _ spv v =>
      if v = 0 then .ok (e.annotate w)
      else .ok (.FloorSub w none (e.annotate w) (.Value w spv v))
  | e1, e2 => .ok (.Sub w none (e1.annotate w) (e2.annotate w))

def fold_mult_case (w : UBitwidth) (l' r' : UExpr) : Except Failure UExpr :=
  match l', r' with
  | .Value _ _ v1, .Value _ _ v2 =>
      .ok (.Value w none ((v1 * v2) % 2 ^ w.toNat))
  | e, .Value _ _ v
  | .Value _ _ v, e =>
      if v = 0 then .ok (.Value w none 0)
      else if v = 1 then .ok (e.annotate w)
      else .ok (.Mult w none (e.annotate w) (.Value w none v))
  | e1, e2 => .ok (.Mult w none (e1.annotate w) (e2.annotate w))

def fold_div_case (w : UBitwidth) (l' r' : UExpr) : Except Failure UExpr :=
  match l', r' with
  | .Value _ _ v1, .Value _ _ v2 =>
      if v2 = 0 then .error .panic
      else .ok (.Value w none (v1 / v2 % 2 ^ w.toNat))
  | e, .Value _ _ v =>
      if v = 1 then .ok (e.annotate w)
      else .ok (.Div w none (e.annotate w) (.Value w none v))
  | e1, e2 => .ok (.Div w none (e1.annotate w) (e2.annotate w))

def fold_rem_case (w : UBitwidth) (l' r' : UExpr) : Except Failure UExpr :=
  match l', r' with
  | .Value _ _ v1, .Value _ _ v2 =>
      if v2 = 0 then .error .panic
      else .ok (.Value w none (v1 % v2 % 2 ^ w.toNat))
  | e, .Value _ _ v =>
      if v = 1 then .ok (.Value w none 0)
      else .ok (.Rem w none (e.annotate w) (.Value w none v))
  | e1, e2 => .ok (.Rem w none (e1.annotate w) (e2.annotate w))

def fold_uint_expression (σ : Constants) : UExpr → Except Failure UExpr
  | .Value w sp v => .ok (.Value w sp v)
  | .Identifier w sp id =>
      match lookupConst σ id with
      | some (.Uint e) => .ok (e.annotate w)
      | some (.Boolean _) => .error .panic
      | none => .ok (.Identifier w sp id)
  | .Add w _sp l r => do
      fold_add_case w (← fold_uint_expression σ l) (← fold_uint_expression σ r)
  | .Sub w _sp l r => do
      fold_sub_case w (← fold_uint_expression σ l) (← fold_uint_expression σ r)
  | .FloorSub w _sp l r => do
      fold_floor_sub_case w (← fold_uint_expression σ l) (← fold_uint_expression σ r)
  | .Mult w _sp l r => do
      fold_mult_case w (← fold_uint_expression σ l) (← fold_uint_expression σ r)
  | .Div w _sp l r => do
      fold_div_case w (← fold_uint_expression σ l) (← fold_uint_expression σ r)
  | .Rem w _sp l r => do
      fold_rem_case w (← fold_uint_expression σ l) (← fold_uint_expression σ r)

/-- `Propagator::fold_eq_expression` (propagation.rs lines 1104-1148)
at `E = UExpression`: fold both sides, reject differing concrete types
(`Error::Type`), reduce structural equality of the folded sides to
`true`, compare canonical forms when both sides are constant, and
otherwise rebuild the binary node (`BinaryExpression::new`, span-free). -/
def fold_eq_uint (σ : Constants) (l r : UExpr) : Except Failure BExpr := do
  let left ← fold_uint_expression σ l
  let right ← fold_uint_expression σ r
  if left.bitwidth ≠ right.bitwidth then .error (.fail .typeError)
  else if left = right then .ok (.Value none true)
  else if left.is_constant && right.is_constant then
    .ok (.Value none
      (decide (left.into_canonical_constant = right.into_canonical_constant)))
  else .ok (.UintEq none left right)

/-- `Propagator::fold_boolean_expression` (propagation.rs lines
1150-1261, fragment variants) plus the overridden
`fold_identifier_expression` for the identifier case.  `UintLt` folds
both uint sides and compares values when both are literal; `And`/`Or`
reduce constants and the `true`/`false` identities; `Not` negates a
literal.  Rebuilt nodes come from the span-free smart constructors
(`BooleanExpression::uint_lt`, `::and`, `::or`, `::not`,
`::from_value`). -/
def fold_lt_case (e1 e2 : UExpr) : Except Failure BExpr :=
  match e1, e2 with
  | .Value _ _ n1, .Value _ _ n2 => .ok (.Value none (decide (n1 < n2)))
  | _, _ => .ok (.UintLt none e1 e2)

def fold_and_case (e1 e2 : BExpr) : Except Failure BExpr :=
  match e1, e2 with
  | .Value _ v1, .Value _ v2 => .ok (.Value none (v1 && v2))
  | e, .Value _ v
  | .Value _ v, e =>
      if v then .ok e else .ok (.Value none false)
  | e1, e2 => .ok (.And none e1 e2)

def fold_or_case (e1 e2 : BExpr) : Except Failure BExpr :=
  match e1, e2 with
  | .Value _ v1, .Value _ v2 => .ok (.Value none (v1 || v2))
  | e, .Value _ v
  | .Value _ v, e =>
      if v then .ok (.Value none true) else .ok e
  | e1, e2 => .ok (.Or none e1 e2)

def fold_not_case (e' : BExpr) : Except Failure BExpr :=
  match e' with
  | .Value _ v => .ok (.Value none (!v))
  | e' => .ok (.Not none e')

def fold_boolean_expression (σ : Constants) : BExpr → Except Failure BExpr
  | .Value sp v => .ok (.Value sp v)
  | .Identifier sp id =>
      match lookupConst σ id with
      | some (.Boolean e) => .ok e
      | some (.Uint _) => .error .panic
      | none => .ok (.Identifier sp id)
  | .UintLt _sp l r => do
      fold_lt_case (← fold_uint_expression σ l) (← fold_uint_expression σ r)
  | .UintEq _sp l r => fold_eq_uint σ l r
  | .And _sp l r => do
      fold_and_case (← fold_boolean_expression σ l) (← fold_boolean_expression σ r)
  | .Or _sp l r => do
      fold_or_case (← fold_boolean_expression σ l) (← fold_boolean_expression σ r)
  | .Not _sp e => do
      fold_not_case (← fold_boolean_expression σ e)

/-- `fold_expression` dispatch over the fragment's scalar arms. -/
def fold_expression (σ : Constants) : TypedExpression → Except Failure TypedExpression
  | .Uint e => (fold_uint_expression σ e).map .Uint
  | .Boolean e => (fold_boolean_expression σ e).map .Boolean

/-! ## Typed statements and `fold_statement` -/

/-- Typed-AST variable `Variable<'ast, T>`: an identifier together with
its declared type. -/
structure TVariable where
  id : Ident
  ty : Ty
deriving DecidableEq, Repr

/-- `TypedAssignee`, restricted to the identifier arm (the fragment has
no aggregates, hence no `Select`/`Member`/`Element` projections). -/
inductive TypedAssignee where
  | identifier (v : TVariable)
deriving DecidableEq, Repr

/-- `get_type` of an assignee. -/
def TypedAssignee.get_type : TypedAssignee → Ty
  | .identifier v => v.ty

/-- Fragment of `TypedStatement`: `Definition` with an expression
right-hand side, `Assertion` (its error kind kept opaque), `For` (whose
body is not descended into), and the call-log markers. -/
inductive TypedStatement where
  | definition (assignee : TypedAssignee) (rhs : TypedExpression)
  | assertion (e : BExpr) (kind : Nat)
  | forLoop (v : TVariable) (lo hi : UExpr) (body : List TypedStatement)
  | pushCallLog
  | popCallLog

/-- `Propagator::fold_statement` (propagation.rs lines 223-544,
fragment arms), with the constants map threaded explicitly.
`Definition`: fold assignee (the identity on identifier assignees) and
right-hand side, compare the concrete types (`Error::Type` on
mismatch); a constant right-hand side is inserted into the constants
map under the SSA `assert!` (modelled as a panic when the identifier is
already bound) and nothing is emitted; a non-constant one removes any
cached constant for the root identifier and, if one existed, re-emits
it ahead of the definition.  `Assertion`: fail with
`Error::AssertionFailed` on a literal `true`, emit nothing on a literal
`false`, otherwise emit the folded assertion.  `For`: fold only the
bounds.  The call-log markers pass through. -/
def fold_statement (σ : Constants) :
    TypedStatement → Except Failure (Constants × List TypedStatement)
  | .definition (.identifier var) rhs => do
      let expr ← fold_expression σ rhs
      if (TypedAssignee.identifier var).get_type ≠ expr.get_type then
        .error (.fail .typeError)
      else if expr.is_constant then
        if (lookupConst σ var.id).isSome then .error .panic
        else .ok (insertConst σ var.id expr.into_canonical_constant, [])
      else
        match removeConst σ var.id with
        | (some c, σ') =>
            .ok (σ', [.definition (.identifier var) c,
                      .definition (.identifier var) expr])
        | (none, σ') => .ok (σ', [.definition (.identifier var) expr])
  | .assertion e kind => do
      let expr ← fold_boolean_expression σ e
      match expr with
      | .Value _ true => .error (.fail .assertionFailed)
      | .Value _ false => .ok (σ, [])
      | expr => .ok (σ, [.assertion expr kind])
  | .forLoop v lo hi body => do
      let lo' ← fold_uint_expression σ lo
      let hi' ← fold_uint_expression σ hi
      .ok (σ, [.forLoop v lo' hi' body])
  | .pushCallLog => .ok (σ, [.pushCallLog])
  | .popCallLog => .ok (σ, [.popCallLog])

/-- Sequential fold of a statement list, accumulating the constants map
and concatenating the emitted statements (the `ResultFolder` default
for statement lists). -/
def fold_statements (σ : Constants) :
    List TypedStatement → Except Failure (Constants × List TypedStatement)
  | [] => .ok (σ, [])
  | s :: rest => do
      let r1 ← fold_statement σ s
      let r2 ← fold_statements r1.1 rest
      .ok (r2.1, r1.2 ++ r2.2)

/-- `Propagator::propagate` (propagation.rs lines 67-74) applied to the
body of `main`: start from an empty constants map and fold the
statements.  The surrounding module/symbol plumbing (lines 155-185)
folds only the main module's `main` symbol and is the identity on
everything else, so the program is modelled by that statement list. -/
def propagate (p : List TypedStatement) :
    Except Failure (List TypedStatement) :=
  (fold_statements [] p).map (·.2)

/-- The assignment phase of the embed-call arm of `fold_statement`
(propagation.rs lines 465-508, identifier-assignee paths): when the
intrinsic produced a constant result `some expr`, the result is
inserted into the constants map with a bare `insert` — no `assert!` on
the previous binding, unlike the expression-definition arm — and
nothing is emitted; when it produced `none`, the cached constant for
the output identifier is flushed exactly as in the non-constant
definition case, `embedDef` being the re-emitted embed-call definition
(`TypedStatement::Definition(assignee, embed_call.into())`, whose
right-hand side lies outside the fragment and is passed opaquely). -/
def process_embed_result (σ : Constants) (var : TVariable)
    (r : Option TypedExpression) (embedDef : TypedStatement) :
    Constants × List TypedStatement :=
  match r with
  | some expr => (insertConst σ var.id expr, [])
  | none =>
      match removeConst σ var.id with
      | (some c, σ') => (σ', [.definition (.identifier var) c, embedDef])
      | (none, σ') => (σ', [embedDef])

/-- Reduction of a successful `Except` bind (the monad instance is
definitional, so this is `rfl`). -/
theorem ok_bind {α β ε : Type _} (a : α) (f : α → Except ε β) :
    (Except.ok (ε := ε) a >>= f) = f a := rfl

/-- Looking up an identifier right after inserting it yields the
inserted value (overwrite semantics of `HashMap::insert`). -/
theorem lookupConst_insertConst (σ : Constants) (id : Ident)
    (e : TypedExpression) : lookupConst (insertConst σ id e) id = some e := by
  simp [lookupConst, insertConst]

/-- C6: for every `Assertion` statement whose condition folds
successfully, the propagator fails with `Error::AssertionFailed`
exactly when the folded condition is the literal `true`; a folded
literal `false` emits no statement, any other folded condition is
re-emitted as an assertion, and in all non-failing cases the constants
map is untouched. -/
theorem C6_assertion_handling (σ : Constants) (e : BExpr) (kind : Nat)
    (e' : BExpr) (h : fold_boolean_expression σ e = .ok e') :
    (fold_statement σ (.assertion e kind) = .error (.fail .assertionFailed) ↔
      ∃ sp, e' = .Value sp true) ∧
    (∀ sp, e' = .Value sp false →
      fold_statement σ (.assertion e kind) = .ok (σ, [])) ∧
    ((∀ sp v, e' ≠ .Value sp v) →
      fold_statement σ (.assertion e kind) = .ok (σ, [.assertion e' kind])) := by
  refine ⟨?_, ?_, ?_⟩
  · constructor
    · intro hfail
      cases e' with
      | Value sp v =>
          cases v with
          | true => exact ⟨sp, rfl⟩
          | false => simp [fold_statement, h, ok_bind] at hfail
      | Identifier sp id => simp [fold_statement, h, ok_bind] at hfail
      | UintLt sp l r => simp [fold_statement, h, ok_bind] at hfail
      | UintEq sp l r => simp [fold_statement, h, ok_bind] at hfail
      | And sp l r => simp [fold_statement, h, ok_bind] at hfail
      | Or sp l r => simp [fold_statement, h, ok_bind] at hfail
      | Not sp i => simp [fold_statement, h, ok_bind] at hfail
    · rintro ⟨sp, rfl⟩
      simp [fold_statement, h, ok_bind]
  · rintro sp rfl
    simp [fold_statement, h, ok_bind]
  · intro hnv
    cases e' with
    | Value sp v => exact absurd rfl (hnv sp v)
    | Identifier sp id => simp [fold_statement, h, ok_bind]
    | UintLt sp l r => simp [fold_statement, h, ok_bind]
    | UintEq sp l r => simp [fold_statement, h, ok_bind]
    | And sp l r => simp [fold_statement, h, ok_bind]
    | Or sp l r => simp [fold_statement, h, ok_bind]
    | Not sp i => simp [fold_statement, h, ok_bind]

/-- C6 witness: a literally-true assertion makes the pass fail with
`AssertionFailed`, and a literally-false one is dropped. -/
theorem C6_assertion_handling_witness :
    fold_statement [] (.assertion (.Value none true) 0) =
      .error (.fail .assertionFailed) ∧
    fold_statement [] (.assertion (.Value none false) 0) = .ok ([], []) :=
  ⟨(C6_assertion_handling [] (.Value none true) 0 (.Value none true) rfl).1.2
      ⟨none, rfl⟩,
    (C6_assertion_handling [] (.Value none false) 0 (.Value none false) rfl).2.1
      none rfl⟩

/-- C8: `floor_sub` folding — two literal operands reduce to the
saturating difference mod `2^w` and a literal right operand `0` reduces
to the left operand, but when neither folded operand is a literal the
node is rebuilt as a wrapping `Sub` node, not as a `FloorSub` node:
propagation.rs line 616 calls `UExpression::sub` in the `FloorSub` arm. -/
theorem C8_floor_sub_fold (w : UBitwidth) (a b : Nat) (x y : Ident) :
    fold_uint_expression []
        (.FloorSub w none (.Value w none a) (.Value w none b)) =
      .ok (.Value w none ((a - b) % 2 ^ w.toNat)) ∧
    fold_uint_expression []
        (.FloorSub w none (.Identifier w none x) (.Value w none 0)) =
      .ok (.Identifier w none x) ∧
    fold_uint_expression []
        (.FloorSub w none (.Identifier w none x) (.Identifier w none y)) =
      .ok (.Sub w none (.Identifier w none x) (.Identifier w none y)) :=
  ⟨rfl, rfl, rfl⟩

/-- C9: the constant fold of unsigned division and remainder is partial
in the divisor: when both operands fold to literals the propagator
computes the native quotient/remainder; a zero divisor is not mapped to
any propagator `Error` — evaluation panics — and under the precondition
`b ≠ 0` the branch is well defined. -/
theorem C9_div_rem_by_zero (σ : Constants) (w : UBitwidth)
    (sp : Option Span) (l r : UExpr) (wa wb : UBitwidth)
    (sa sb : Option Span) (a b : Nat)
    (hl : fold_uint_expression σ l = .ok (.Value wa sa a))
    (hr : fold_uint_expression σ r = .ok (.Value wb sb b)) :
    fold_uint_expression σ (.Div w sp l r) =
      (if b = 0 then .error .panic
        else .ok (.Value w none (a / b % 2 ^ w.toNat))) ∧
    fold_uint_expression σ (.Rem w sp l r) =
      (if b = 0 then .error .panic
        else .ok (.Value w none (a % b % 2 ^ w.toNat))) := by
  constructor <;>
    simp [fold_uint_expression, hl, hr, ok_bind, fold_div_case, fold_rem_case]

/-- C9 witness: `5 / 0` at width 8 panics rather than producing an
`Error`, and `300 / 7` folds to `42`. -/
theorem C9_div_rem_by_zero_witness :
    fold_uint_expression []
        (.Div .b8 none (.Value .b8 none 5) (.Value .b8 none 0)) =
      .error .panic ∧
    fold_uint_expression []
        (.Div .b8 none (.Value .b8 none 300) (.Value .b8 none 7)) =
      .ok (.Value .b8 none 42) := by
  have h1 := (C9_div_rem_by_zero [] .b8 none (.Value .b8 none 5)
    (.Value .b8 none 0) .b8 .b8 none none 5 0 rfl rfl).1
  have h2 := (C9_div_rem_by_zero [] .b8 none (.Value .b8 none 300)
    (.Value .b8 none 7) .b8 .b8 none none 300 7 rfl rfl).1
  norm_num at h1 h2
  exact ⟨h1, h2⟩

/-- C10: the SSA discipline on the constants map is asymmetric — a
constant expression assigned to a plain identifier already bound in the
map trips the `assert!` (a panic), while a constant embed-call result
assigned to a bound identifier is inserted with no assertion, silently
overwriting the binding and emitting no statement. -/
theorem C10_constants_insert_asymmetry (σ : Constants) (var : TVariable)
    (rhs expr cexpr : TypedExpression) (d : TypedStatement)
    (hfold : fold_expression σ rhs = .ok expr)
    (hty : expr.get_type = var.ty)
    (hconst : expr.is_constant = true)
    (hbound : (lookupConst σ var.id).isSome = true) :
    fold_statement σ (.definition (.identifier var) rhs) = .error .panic ∧
    process_embed_result σ var (some cexpr) d = (insertConst σ var.id cexpr, []) ∧
    lookupConst (insertConst σ var.id cexpr) var.id = some cexpr := by
  refine ⟨?_, rfl, lookupConst_insertConst σ var.id cexpr⟩
  simp [fold_statement, hfold, ok_bind, TypedAssignee.get_type, hty,
    hconst, hbound]

/-- C10 witness: with `x` bound to `1:u8`, re-assigning the constant
`2:u8` through a plain definition panics, while storing an embed-call
result overwrites the binding and emits nothing. -/
theorem C10_constants_insert_asymmetry_witness :
    fold_statement [(0, .Uint (.Value .b8 none 1))]
        (.definition (.identifier ⟨0, .uint .b8⟩) (.Uint (.Value .b8 none 2))) =
      .error .panic ∧
    process_embed_result [(0, .Uint (.Value .b8 none 1))] ⟨0, .uint .b8⟩
        (some (.Uint (.Value .b8 none 3))) .pushCallLog =
      (insertConst [(0, .Uint (.Value .b8 none 1))] 0 (.Uint (.Value .b8 none 3)), []) :=
  ⟨(C10_constants_insert_asymmetry [(0, .Uint (.Value .b8 none 1))]
      ⟨0, .uint .b8⟩ (.Uint (.Value .b8 none 2)) (.Uint (.Value .b8 none 2))
      (.Uint (.Value .b8 none 3)) .pushCallLog rfl rfl rfl rfl).1,
    (C10_constants_insert_asymmetry [(0, .Uint (.Value .b8 none 1))]
      ⟨0, .uint .b8⟩ (.Uint (.Value .b8 none 2)) (.Uint (.Value .b8 none 2))
      (.Uint (.Value .b8 none 3)) .pushCallLog rfl rfl rfl rfl).2.1⟩

/-! ## C3: idempotence of propagation

The statement as frozen — `propagate (propagate p) = propagate p` for
every program on which `propagate` succeeds — fails on the code: when a
bound constant is flushed back into the program because its identifier
is redefined (which the SSA assumption of the propagator rules out, but
nothing in `propagate` checks), the re-emitted definition
`root := cached_constant` carries the *current* statement's declared
type for the root variable together with the *cached* constant, and a
second run rejects it with `Error::Type`. -/

/-- A program on which `propagate` succeeds but its output does not:
`x : u8 := 5` followed by the (non-SSA) redefinition `x : bool := y`. -/
def c3Program : List TypedStatement :=
  [.definition (.identifier ⟨0, .uint .b8⟩) (.Uint (.Value .b8 none 5)),
   .definition (.identifier ⟨0, .boolean⟩) (.Boolean (.Identifier none 1))]

/-- The (successful) output of `propagate` on `c3Program`: the cached
`5 : u8` is flushed through a definition whose assignee is the
bool-typed redefinition variable. -/
def c3Output : List TypedStatement :=
  [.definition (.identifier ⟨0, .boolean⟩) (.Uint (.Value .b8 none 5)),
   .definition (.identifier ⟨0, .boolean⟩) (.Boolean (.Identifier none 1))]

/-- C3 counterexample: `propagate` succeeds on `c3Program`, yet
re-running it on the output fails with `Error::Type`, so
`propagate (propagate p) = propagate p` does not hold for every program
on which `propagate` succeeds. -/
theorem C3_idempotence_counterexample :
    propagate c3Program = .ok c3Output ∧
    propagate c3Output = .error (.fail .typeError) ∧
    propagate c3Output ≠ propagate c3Program := by
  refine ⟨rfl, rfl, ?_⟩
  intro h
  simp [show propagate c3Output = .error (.fail .typeError) from rfl,
    show propagate c3Program = .ok c3Output from rfl] at h

/-! ## Normal forms of the propagator's fold

`propagate` replays cleanly on its own output when the input is
well-typed and obeys the single-assignment discipline.  The proof goes
through a syntactic normal-form invariant: `nfU`/`nfB` describe exactly
the shapes the expression folds emit, and folding with an empty
constants map is the identity on them. -/

/-- Bitwidth-coherence of a uint expression: every operator node is
applied to operands of its own bitwidth (what the upstream type checker
guarantees; `fold_uint_expression` itself never checks it). -/
def wtU : UExpr → Bool
  | .Value _ _ _ => true
  | .Identifier _ _ _ => true
  | .Add w _ l r
  | .Sub w _ l r
  | .FloorSub w _ l r
  | .Mult w _ l r
  | .Div w _ l r
  | .Rem w _ l r =>
      (l.bitwidth == w) && (r.bitwidth == w) && wtU l && wtU r

/-- Bitwidth-coherence of a boolean expression (its uint leaves). -/
def wtB : BExpr → Bool
  | .Value _ _ => true
  | .Identifier _ _ => true
  | .UintLt _ l r
  | .UintEq _ l r => wtU l && wtU r
  | .And _ l r
  | .Or _ l r => wtB l && wtB r
  | .Not _ e => wtB e

/-- Bitwidth-coherence of a fragment expression. -/
def TypedExpression.wt : TypedExpression → Bool
  | .Uint e => wtU e
  | .Boolean e => wtB e

/-- Bitwidth-coherence of a fragment statement (the `For` body is not
folded, so it is not constrained). -/
def TypedStatement.wt : TypedStatement → Bool
  | .definition _ rhs => rhs.wt
  | .assertion e _ => wtB e
  | .forLoop _ lo hi _ => wtU lo && wtU hi
  | .pushCallLog => true
  | .popCallLog => true

/-- Normal forms of `fold_uint_expression`: the node spans produced by
the span-free smart constructors, literal operands only in the
positions the fold rules leave them (never two literals, never a
neutral element, literals normalised to the right for the commutative
`Add`/`Mult`, a surviving `FloorSub` only with a non-zero literal right
operand), and children re-tagged with the node's bitwidth. -/
def nfU : UExpr → Bool
  | .Value _ _ _ => true
  | .Identifier _ _ _ => true
  | .Add w sp l r =>
      sp.isNone && nfU l && nfU r && (l.bitwidth == w) && (r.bitwidth == w) &&
      !l.is_constant &&
      (match r with
       | .Value _ spv v => spv.isNone && (v != 0)
       | _ => true)
  | .Sub w sp l r =>
      sp.isNone && nfU l && nfU r && (l.bitwidth == w) && (r.bitwidth == w) &&
      (match r with
       | .Value _ spv v => !l.is_constant && spv.isNone && (v != 0)
       | _ => true)
  | .FloorSub w sp l r =>
      sp.isNone && nfU l && nfU r && (l.bitwidth == w) && (r.bitwidth == w) &&
      !l.is_constant &&
      (match r with
       | .Value _ _ v => v != 0
       | _ => false)
  | .Mult w sp l r =>
      sp.isNone && nfU l && nfU r && (l.bitwidth == w) && (r.bitwidth == w) &&
      !l.is_constant &&
      (match r with
       | .Value _ spv v => spv.isNone && (v != 0) && (v != 1)
       | _ => true)
  | .Div w sp l r =>
      sp.isNone && nfU l && nfU r && (l.bitwidth == w) && (r.bitwidth == w) &&
      (match r with
       | .Value _ spv v => !l.is_constant && spv.isNone && (v != 1)
       | _ => true)
  | .Rem w sp l r =>
      sp.isNone && nfU l && nfU r && (l.bitwidth == w) && (r.bitwidth == w) &&
      (match r with
       | .Value _ spv v => !l.is_constant && spv.isNone && (v != 1)
       | _ => true)

/-- Normal forms of `fold_boolean_expression`: span-free rebuilt nodes,
no two literal operands (none at all under `And`/`Or`/`Not`, which
always reduce a literal side), and for the equality no structurally
equal or doubly-constant sides and matching operand bitwidths. -/
def nfB : BExpr → Bool
  | .Value _ _ => true
  | .Identifier _ _ => true
  | .UintLt sp l r =>
      sp.isNone && nfU l && nfU r && !(l.is_constant && r.is_constant)
  | .UintEq sp l r =>
      sp.isNone && nfU l && nfU r && (l.bitwidth == r.bitwidth) &&
      !(l == r) && !(l.is_constant && r.is_constant)
  | .And sp l r =>
      sp.isNone && nfB l && nfB r && !l.is_constant && !r.is_constant
  | .Or sp l r =>
      sp.isNone && nfB l && nfB r && !l.is_constant && !r.is_constant
  | .Not sp e => sp.isNone && nfB e && !e.is_constant

/-- Normal form of a fragment expression. -/
def TypedExpression.nf : TypedExpression → Bool
  | .Uint e => nfU e
  | .Boolean e => nfB e

/-- The constants map stores only canonical literal constants. -/
def isCanonicalConst : TypedExpression → Bool
  | .Uint (.Value _ none _) => true
  | .Boolean (.Value none _) => true
  | _ => false

/-- Invariant of the propagator's constants map. -/
def CanonicalConsts (σ : Constants) : Prop :=
  ∀ p ∈ σ, isCanonicalConst p.2 = true

theorem UExpr.annotate_bitwidth (e : UExpr) (w : UBitwidth) :
    (e.annotate w).bitwidth = w := by
  cases e <;> rfl

theorem UExpr.annotate_self (e : UExpr) : e.annotate e.bitwidth = e := by
  cases e <;> rfl

theorem UExpr.annotate_eq_self (e : UExpr) (w : UBitwidth)
    (h : e.bitwidth = w) : e.annotate w = e := by
  subst h; exact e.annotate_self

theorem canonical_of_constant (e : TypedExpression)
    (h : e.is_constant = true) :
    isCanonicalConst e.into_canonical_constant = true := by
  cases e with
  | Uint u => cases u <;> simp_all [TypedExpression.is_constant,
      UExpr.is_constant, TypedExpression.into_canonical_constant,
      UExpr.into_canonical_constant, isCanonicalConst]
  | Boolean b => cases b <;> simp_all [TypedExpression.is_constant,
      BExpr.is_constant, TypedExpression.into_canonical_constant,
      BExpr.into_canonical_constant, isCanonicalConst]

theorem lookupConst_nil (id : Ident) : lookupConst [] id = none := rfl

theorem lookupConst_cons_ne (p : Ident × TypedExpression) (σ : Constants)
    (id : Ident) (h : p.1 ≠ id) : lookupConst (p :: σ) id = lookupConst σ id := by
  simp [lookupConst, List.find?_cons, decide_eq_false h]

theorem lookupConst_cons_eq (p : Ident × TypedExpression) (σ : Constants)
    (id : Ident) (h : p.1 = id) : lookupConst (p :: σ) id = some p.2 := by
  simp [lookupConst, List.find?_cons, decide_eq_true h]

theorem lookupConst_eq_none_of_fresh (σ : Constants) (id : Ident)
    (h : ∀ p ∈ σ, p.1 ≠ id) : lookupConst σ id = none := by
  have : List.find? (fun p => decide (p.1 = id)) σ = none :=
    List.find?_eq_none.mpr (by intro p hp; simpa using h p hp)
  simp [lookupConst, this]

theorem lookupConst_erase_ne (σ : Constants) (id id' : Ident)
    (h : id ≠ id') : lookupConst (eraseConst σ id') id = lookupConst σ id := by
  induction σ with
  | nil => rfl
  | cons p rest ih =>
      by_cases hp : p.1 = id'
      · rw [eraseConst, List.filter_cons_of_neg (by simpa using hp)]
        rw [eraseConst] at ih
        rw [ih, lookupConst_cons_ne p rest id (by rw [hp]; exact Ne.symm h)]
      · rw [eraseConst, List.filter_cons_of_pos (by simpa using hp)]
        by_cases hq : p.1 = id
        · rw [lookupConst_cons_eq p _ id hq, lookupConst_cons_eq p rest id hq]
        · rw [lookupConst_cons_ne p _ id hq, lookupConst_cons_ne p rest id hq]
          rw [eraseConst] at ih
          exact ih

theorem lookupConst_erase_self (σ : Constants) (id : Ident) :
    lookupConst (eraseConst σ id) id = none := by
  apply lookupConst_eq_none_of_fresh
  intro p hp
  simp only [eraseConst, List.mem_filter] at hp
  simpa using hp.2

theorem lookupConst_insert_ne (σ : Constants) (id id' : Ident)
    (e : TypedExpression) (h : id ≠ id') :
    lookupConst (insertConst σ id' e) id = lookupConst σ id := by
  rw [insertConst, lookupConst_cons_ne _ _ id (Ne.symm h),
    lookupConst_erase_ne σ id id' h]

theorem CanonicalConsts_nil : CanonicalConsts [] := by
  intro p hp; cases hp

theorem CanonicalConsts_insert (σ : Constants) (id : Ident)
    (e : TypedExpression) (hσ : CanonicalConsts σ)
    (he : isCanonicalConst e = true) :
    CanonicalConsts (insertConst σ id e) := by
  intro p hp
  simp only [insertConst, eraseConst, List.mem_cons, List.mem_filter] at hp
  rcases hp with rfl | ⟨hp, _⟩
  · exact he
  · exact hσ p hp

theorem CanonicalConsts_erase (σ : Constants) (id : Ident)
    (hσ : CanonicalConsts σ) : CanonicalConsts (eraseConst σ id) := by
  intro p hp
  simp only [eraseConst, List.mem_filter] at hp
  exact hσ p hp.1


/-! ### Shape reductions and normal-form lemmas for the uint fold -/

theorem UExpr.eq_value_of_constant (e : UExpr) (h : e.is_constant = true) :
    ∃ w sp v, e = .Value w sp v := by
  cases e <;> simp_all [UExpr.is_constant]

theorem UExpr.annotate_is_constant (e : UExpr) (w : UBitwidth) :
    (e.annotate w).is_constant = e.is_constant := by
  cases e <;> rfl

theorem fold_add_case_vv (w w1 w2 : UBitwidth) (s1 s2 : Option Span)
    (v1 v2 : Nat) :
    fold_add_case w (.Value w1 s1 v1) (.Value w2 s2 v2) =
      .ok (.Value w none ((v1 + v2) % 2 ^ w.toNat)) := rfl

theorem fold_add_case_ev (w w2 : UBitwidth) (s2 : Option Span) (v : Nat)
    (e : UExpr) (he : e.is_constant = false) :
    fold_add_case w e (.Value w2 s2 v) =
      if v = 0 then .ok (e.annotate w)
      else .ok (.Add w none (e.annotate w) (.Value w none v)) := by
  cases e <;> first | rfl | simp [UExpr.is_constant] at he

theorem fold_add_case_ve (w w1 : UBitwidth) (s1 : Option Span) (v : Nat)
    (e : UExpr) (he : e.is_constant = false) :
    fold_add_case w (.Value w1 s1 v) e =
      if v = 0 then .ok (e.annotate w)
      else .ok (.Add w none (e.annotate w) (.Value w none v)) := by
  cases e <;> first | rfl | simp [UExpr.is_constant] at he

theorem fold_add_case_ee (w : UBitwidth) (e1 e2 : UExpr)
    (h1 : e1.is_constant = false) (h2 : e2.is_constant = false) :
    fold_add_case w e1 e2 = .ok (.Add w none (e1.annotate w) (e2.annotate w)) := by
  cases e1 <;> cases e2 <;>
    first | rfl | simp [UExpr.is_constant] at h1 h2

theorem nfU_add_intro (w : UBitwidth) (l r : UExpr)
    (hl : nfU l = true) (hr : nfU r = true)
    (hlw : l.bitwidth = w) (hrw : r.bitwidth = w)
    (hlc : l.is_constant = false)
    (hv : ∀ wv sv v, r = .Value wv sv v → sv = none ∧ v ≠ 0) :
    nfU (.Add w none l r) = true := by
  cases r with
  | Value wv sv v =>
      obtain ⟨rfl, hv0⟩ := hv wv sv v rfl
      simp_all [nfU]
  | _ => simp_all [nfU]

theorem nfU_add_elim (w : UBitwidth) (sp : Option Span) (l r : UExpr)
    (h : nfU (.Add w sp l r) = true) :
    sp = none ∧ nfU l = true ∧ nfU r = true ∧ l.bitwidth = w ∧
    r.bitwidth = w ∧ l.is_constant = false ∧
    (∀ wv sv v, r = .Value wv sv v → sv = none ∧ v ≠ 0) := by
  simp only [nfU, Bool.and_eq_true, beq_iff_eq, Option.isNone_iff_eq_none,
    Bool.not_eq_true'] at h
  obtain ⟨⟨⟨⟨⟨⟨hsp, hl⟩, hr⟩, hlw⟩, hrw⟩, hlc⟩, hm⟩ := h
  refine ⟨hsp, hl, hr, hlw, hrw, hlc, ?_⟩
  intro wv sv v hveq
  subst hveq
  simpa [Option.isNone_iff_eq_none] using hm

theorem fold_add_case_nf (w : UBitwidth) (l' r' out : UExpr)
    (hl : nfU l' = true) (hr : nfU r' = true)
    (hlw : l'.bitwidth = w) (hrw : r'.bitwidth = w)
    (h : fold_add_case w l' r' = .ok out) : nfU out = true := by
  by_cases hc1 : l'.is_constant = true
  · obtain ⟨w1, s1, v1, rfl⟩ := UExpr.eq_value_of_constant l' hc1
    by_cases hc2 : r'.is_constant = true
    · obtain ⟨w2, s2, v2, rfl⟩ := UExpr.eq_value_of_constant r' hc2
      rw [fold_add_case_vv] at h
      cases h; rfl
    · rw [fold_add_case_ve w w1 s1 v1 r' (by simpa using hc2)] at h
      split_ifs at h with hv
      · cases h; rw [UExpr.annotate_eq_self r' w hrw]; exact hr
      · cases h
        exact nfU_add_intro w _ _
          ((UExpr.annotate_eq_self r' w hrw).symm ▸ hr) rfl
          (UExpr.annotate_bitwidth r' w) rfl
          ((UExpr.annotate_is_constant r' w).trans (by simpa using hc2))
          (by intro wv sv v hveq; cases hveq; exact ⟨rfl, hv⟩)
  · by_cases hc2 : r'.is_constant = true
    · obtain ⟨w2, s2, v2, rfl⟩ := UExpr.eq_value_of_constant r' hc2
      rw [fold_add_case_ev w w2 s2 v2 l' (by simpa using hc1)] at h
      split_ifs at h with hv
      · cases h; rw [UExpr.annotate_eq_self l' w hlw]; exact hl
      · cases h
        exact nfU_add_intro w _ _
          ((UExpr.annotate_eq_self l' w hlw).symm ▸ hl) rfl
          (UExpr.annotate_bitwidth l' w) rfl
          ((UExpr.annotate_is_constant l' w).trans (by simpa using hc1))
          (by intro wv sv v hveq; cases hveq; exact ⟨rfl, hv⟩)
    · rw [fold_add_case_ee w l' r' (by simpa using hc1) (by simpa using hc2)] at h
      cases h
      rw [UExpr.annotate_eq_self l' w hlw, UExpr.annotate_eq_self r' w hrw]
      exact nfU_add_intro w l' r' hl hr hlw hrw (by simpa using hc1)
        (by intro wv sv v hveq; rw [hveq] at hc2; simp [UExpr.is_constant] at hc2)

theorem fold_add_case_id (w : UBitwidth) (l r : UExpr)
    (hnf : nfU (.Add w none l r) = true) :
    fold_add_case w l r = .ok (.Add w none l r) := by
  obtain ⟨-, hl, hr, hlw, hrw, hlc, hv⟩ := nfU_add_elim w none l r hnf
  by_cases hc2 : r.is_constant = true
  · obtain ⟨w2, s2, v2, rfl⟩ := UExpr.eq_value_of_constant r hc2
    obtain ⟨rfl, hv0⟩ := hv w2 s2 v2 rfl
    rw [fold_add_case_ev w w2 none v2 l hlc, if_neg hv0,
      UExpr.annotate_eq_self l w hlw]
    have hw2 : w2 = w := by simpa [UExpr.bitwidth] using hrw
    rw [hw2]
  · rw [fold_add_case_ee w l r hlc (by simpa using hc2),
      UExpr.annotate_eq_self l w hlw, UExpr.annotate_eq_self r w hrw]

theorem fold_sub_case_vv (w w1 w2 : UBitwidth) (s1 s2 : Option Span)
    (v1 v2 : Nat) :
    fold_sub_case w (.Value w1 s1 v1) (.Value w2 s2 v2) =
      .ok (.Value w none (wrapping_sub128 v1 v2 % 2 ^ w.toNat)) := rfl

theorem fold_sub_case_ev (w w2 : UBitwidth) (s2 : Option Span) (v : Nat)
    (e : UExpr) (he : e.is_constant = false) :
    fold_sub_case w e (.Value w2 s2 v) =
      if v = 0 then .ok (e.annotate w)
      else .ok (.Sub w none (e.annotate w) (.Value w none v)) := by
  cases e <;> first | rfl | simp [UExpr.is_constant] at he

theorem fold_sub_case_en (w : UBitwidth) (e1 e2 : UExpr)
    (h2 : e2.is_constant = false) :
    fold_sub_case w e1 e2 = .ok (.Sub w none (e1.annotate w) (e2.annotate w)) := by
  cases e1 <;> cases e2 <;> first | rfl | simp [UExpr.is_constant] at h2

theorem nfU_sub_intro (w : UBitwidth) (l r : UExpr)
    (hl : nfU l = true) (hr : nfU r = true)
    (hlw : l.bitwidth = w) (hrw : r.bitwidth = w)
    (hv : ∀ wv sv v, r = .Value wv sv v →
      l.is_constant = false ∧ sv = none ∧ v ≠ 0) :
    nfU (.Sub w none l r) = true := by
  cases r with
  | Value wv sv v =>
      obtain ⟨hlc, rfl, hv0⟩ := hv wv sv v rfl
      simp_all [nfU]
  | _ => simp_all [nfU]

theorem nfU_sub_elim (w : UBitwidth) (sp : Option Span) (l r : UExpr)
    (h : nfU (.Sub w sp l r) = true) :
    sp = none ∧ nfU l = true ∧ nfU r = true ∧ l.bitwidth = w ∧
    r.bitwidth = w ∧
    (∀ wv sv v, r = .Value wv sv v →
      l.is_constant = false ∧ sv = none ∧ v ≠ 0) := by
  simp only [nfU, Bool.and_eq_true, beq_iff_eq, Option.isNone_iff_eq_none,
    Bool.not_eq_true'] at h
  obtain ⟨⟨⟨⟨⟨hsp, hl⟩, hr⟩, hlw⟩, hrw⟩, hm⟩ := h
  refine ⟨hsp, hl, hr, hlw, hrw, ?_⟩
  intro wv sv v hveq
  subst hveq
  simpa [Option.isNone_iff_eq_none, Bool.not_eq_true', and_assoc] using hm

theorem fold_sub_case_nf (w : UBitwidth) (l' r' out : UExpr)
    (hl : nfU l' = true) (hr : nfU r' = true)
    (hlw : l'.bitwidth = w) (hrw : r'.bitwidth = w)
    (h : fold_sub_case w l' r' = .ok out) : nfU out = true := by
  by_cases hc2 : r'.is_constant = true
  · obtain ⟨w2, s2, v2, rfl⟩ := UExpr.eq_value_of_constant r' hc2
    by_cases hc1 : l'.is_constant = true
    · obtain ⟨w1, s1, v1, rfl⟩ := UExpr.eq_value_of_constant l' hc1
      rw [fold_sub_case_vv] at h
      cases h; rfl
    · rw [fold_sub_case_ev w w2 s2 v2 l' (by simpa using hc1)] at h
      split_ifs at h with hv
      · cases h; rw [UExpr.annotate_eq_self l' w hlw]; exact hl
      · cases h
        apply nfU_sub_intro w (l'.annotate w) (.Value w none v2)
          ((UExpr.annotate_eq_self l' w hlw).symm ▸ hl) rfl
          (UExpr.annotate_bitwidth l' w) rfl
        intro wv sv v hveq; cases hveq
        exact ⟨(UExpr.annotate_is_constant l' w).trans (by simpa using hc1),
          rfl, hv⟩
  · rw [fold_sub_case_en w l' r' (by simpa using hc2)] at h
    cases h
    rw [UExpr.annotate_eq_self l' w hlw, UExpr.annotate_eq_self r' w hrw]
    apply nfU_sub_intro w l' r' hl hr hlw hrw
    intro wv sv v hveq; rw [hveq] at hc2; simp [UExpr.is_constant] at hc2

theorem fold_sub_case_id (w : UBitwidth) (l r : UExpr)
    (hnf : nfU (.Sub w none l r) = true) :
    fold_sub_case w l r = .ok (.Sub w none l r) := by
  obtain ⟨-, hl, hr, hlw, hrw, hv⟩ := nfU_sub_elim w none l r hnf
  by_cases hc2 : r.is_constant = true
  · obtain ⟨w2, s2, v2, rfl⟩ := UExpr.eq_value_of_constant r hc2
    obtain ⟨hlc, rfl, hv0⟩ := hv w2 s2 v2 rfl
    rw [fold_sub_case_ev w w2 none v2 l hlc, if_neg hv0,
      UExpr.annotate_eq_self l w hlw]
    have hw2 : w2 = w := by simpa [UExpr.bitwidth] using hrw
    rw [hw2]
  · rw [fold_sub_case_en w l r (by simpa using hc2),
      UExpr.annotate_eq_self l w hlw, UExpr.annotate_eq_self r w hrw]

theorem fold_floor_sub_case_vv (w w1 w2 : UBitwidth) (s1 s2 : Option Span)
    (v1 v2 : Nat) :
    fold_floor_sub_case w (.Value w1 s1 v1) (.Value w2 s2 v2) =
      .ok (.Value w none ((v1 - v2) % 2 ^ w.toNat)) := rfl

theorem fold_floor_sub_case_ev (w w2 : UBitwidth) (s2 : Option Span) (v : Nat)
    (e : UExpr) (he : e.is_constant = false) :
    fold_floor_sub_case w e (.Value w2 s2 v) =
      if v = 0 then .ok (e.annotate w)
      else .ok (.FloorSub w none (e.annotate w) (.Value w s2 v)) := by
  cases e <;> first | rfl | simp [UExpr.is_constant] at he

theorem fold_floor_sub_case_en (w : UBitwidth) (e1 e2 : UExpr)
    (h2 : e2.is_constant = false) :
    fold_floor_sub_case w e1 e2 =
      .ok (.Sub w none (e1.annotate w) (e2.annotate w)) := by
  cases e1 <;> cases e2 <;> first | rfl | simp [UExpr.is_constant] at h2

theorem nfU_floor_sub_intro (w : UBitwidth) (l : UExpr) (sv : Option Span)
    (v : Nat) (hl : nfU l = true) (hlw : l.bitwidth = w)
    (hlc : l.is_constant = false) (hv0 : v ≠ 0) :
    nfU (.FloorSub w none l (.Value w sv v)) = true := by
  simp_all [nfU, UExpr.bitwidth]

theorem nfU_floor_sub_elim (w : UBitwidth) (sp : Option Span) (l r : UExpr)
    (h : nfU (.FloorSub w sp l r) = true) :
    sp = none ∧ nfU l = true ∧ l.bitwidth = w ∧ l.is_constant = false ∧
    ∃ sv v, r = .Value w sv v ∧ v ≠ 0 := by
  cases r with
  | Value wv sv v =>
      simp only [nfU, Bool.and_eq_true, beq_iff_eq, Option.isNone_iff_eq_none,
        Bool.not_eq_true', bne_iff_ne, UExpr.bitwidth] at h
      obtain ⟨⟨⟨⟨⟨⟨hsp, hl⟩, -⟩, hlw⟩, hwv⟩, hlc⟩, hv0⟩ := h
      exact ⟨hsp, hl, hlw, hlc, sv, v, by rw [hwv], hv0⟩
  | Identifier wv sv id => simp [nfU] at h
  | Add wv sv a b => simp [nfU] at h
  | Sub wv sv a b => simp [nfU] at h
  | FloorSub wv sv a b => simp [nfU] at h
  | Mult wv sv a b => simp [nfU] at h
  | Div wv sv a b => simp [nfU] at h
  | Rem wv sv a b => simp [nfU] at h

theorem fold_floor_sub_case_nf (w : UBitwidth) (l' r' out : UExpr)
    (hl : nfU l' = true) (hr : nfU r' = true)
    (hlw : l'.bitwidth = w) (hrw : r'.bitwidth = w)
    (h : fold_floor_sub_case w l' r' = .ok out) : nfU out = true := by
  by_cases hc2 : r'.is_constant = true
  · obtain ⟨w2, s2, v2, rfl⟩ := UExpr.eq_value_of_constant r' hc2
    by_cases hc1 : l'.is_constant = true
    · obtain ⟨w1, s1, v1, rfl⟩ := UExpr.eq_value_of_constant l' hc1
      rw [fold_floor_sub_case_vv] at h
      cases h; rfl
    · rw [fold_floor_sub_case_ev w w2 s2 v2 l' (by simpa using hc1)] at h
      split_ifs at h with hv
      · cases h; rw [UExpr.annotate_eq_self l' w hlw]; exact hl
      · cases h
        exact nfU_floor_sub_intro w _ s2 v2
          ((UExpr.annotate_eq_self l' w hlw).symm ▸ hl)
          (UExpr.annotate_bitwidth l' w)
          ((UExpr.annotate_is_constant l' w).trans (by simpa using hc1)) hv
  · rw [fold_floor_sub_case_en w l' r' (by simpa using hc2)] at h
    cases h
    rw [UExpr.annotate_eq_self l' w hlw, UExpr.annotate_eq_self r' w hrw]
    apply nfU_sub_intro w l' r' hl hr hlw hrw
    intro wv sv v hveq; rw [hveq] at hc2; simp [UExpr.is_constant] at hc2

theorem fold_floor_sub_case_id (w : UBitwidth) (l r : UExpr)
    (hnf : nfU (.FloorSub w none l r) = true) :
    fold_floor_sub_case w l r = .ok (.FloorSub w none l r) := by
  obtain ⟨-, hl, hlw, hlc, sv, v, rfl, hv0⟩ := nfU_floor_sub_elim w none l r hnf
  rw [fold_floor_sub_case_ev w w sv v l hlc, if_neg hv0,
    UExpr.annotate_eq_self l w hlw]

theorem fold_mult_case_vv (w w1 w2 : UBitwidth) (s1 s2 : Option Span)
    (v1 v2 : Nat) :
    fold_mult_case w (.Value w1 s1 v1) (.Value w2 s2 v2) =
      .ok (.Value w none ((v1 * v2) % 2 ^ w.toNat)) := rfl

theorem fold_mult_case_ev (w w2 : UBitwidth) (s2 : Option Span) (v : Nat)
    (e : UExpr) (he : e.is_constant = false) :
    fold_mult_case w e (.Value w2 s2 v) =
      if v = 0 then .ok (.Value w none 0)
      else if v = 1 then .ok (e.annotate w)
      else .ok (.Mult w none (e.annotate w) (.Value w none v)) := by
  cases e <;> first | rfl | simp [UExpr.is_constant] at he

theorem fold_mult_case_ve (w w1 : UBitwidth) (s1 : Option Span) (v : Nat)
    (e : UExpr) (he : e.is_constant = false) :
    fold_mult_case w (.Value w1 s1 v) e =
      if v = 0 then .ok (.Value w none 0)
      else if v = 1 then .ok (e.annotate w)
      else .ok (.Mult w none (e.annotate w) (.Value w none v)) := by
  cases e <;> first | rfl | simp [UExpr.is_constant] at he

theorem fold_mult_case_ee (w : UBitwidth) (e1 e2 : UExpr)
    (h1 : e1.is_constant = false) (h2 : e2.is_constant = false) :
    fold_mult_case w e1 e2 =
      .ok (.Mult w none (e1.annotate w) (e2.annotate w)) := by
  cases e1 <;> cases e2 <;> first | rfl | simp [UExpr.is_constant] at h1 h2

theorem nfU_mult_intro (w : UBitwidth) (l r : UExpr)
    (hl : nfU l = true) (hr : nfU r = true)
    (hlw : l.bitwidth = w) (hrw : r.bitwidth = w)
    (hlc : l.is_constant = false)
    (hv : ∀ wv sv v, r = .Value wv sv v → sv = none ∧ v ≠ 0 ∧ v ≠ 1) :
    nfU (.Mult w none l r) = true := by
  cases r with
  | Value wv sv v =>
      obtain ⟨rfl, hv0, hv1⟩ := hv wv sv v rfl
      simp_all [nfU]
  | _ => simp_all [nfU]

theorem nfU_mult_elim (w : UBitwidth) (sp : Option Span) (l r : UExpr)
    (h : nfU (.Mult w sp l r) = true) :
    sp = none ∧ nfU l = true ∧ nfU r = true ∧ l.bitwidth = w ∧
    r.bitwidth = w ∧ l.is_constant = false ∧
    (∀ wv sv v, r = .Value wv sv v → sv = none ∧ v ≠ 0 ∧ v ≠ 1) := by
  simp only [nfU, Bool.and_eq_true, beq_iff_eq, Option.isNone_iff_eq_none,
    Bool.not_eq_true'] at h
  obtain ⟨⟨⟨⟨⟨⟨hsp, hl⟩, hr⟩, hlw⟩, hrw⟩, hlc⟩, hm⟩ := h
  refine ⟨hsp, hl, hr, hlw, hrw, hlc, ?_⟩
  intro wv sv v hveq
  subst hveq
  simpa [Option.isNone_iff_eq_none, and_assoc] using hm

theorem fold_mult_case_nf (w : UBitwidth) (l' r' out : UExpr)
    (hl : nfU l' = true) (hr : nfU r' = true)
    (hlw : l'.bitwidth = w) (hrw : r'.bitwidth = w)
    (h : fold_mult_case w l' r' = .ok out) : nfU out = true := by
  by_cases hc1 : l'.is_constant = true
  · obtain ⟨w1, s1, v1, rfl⟩ := UExpr.eq_value_of_constant l' hc1
    by_cases hc2 : r'.is_constant = true
    · obtain ⟨w2, s2, v2, rfl⟩ := UExpr.eq_value_of_constant r' hc2
      rw [fold_mult_case_vv] at h
      cases h; rfl
    · rw [fold_mult_case_ve w w1 s1 v1 r' (by simpa using hc2)] at h
      split_ifs at h with hv0 hv1
      · cases h; rfl
      · cases h; rw [UExpr.annotate_eq_self r' w hrw]; exact hr
      · cases h
        apply nfU_mult_intro w (r'.annotate w) (.Value w none v1)
          ((UExpr.annotate_eq_self r' w hrw).symm ▸ hr) rfl
          (UExpr.annotate_bitwidth r' w) rfl
          ((UExpr.annotate_is_constant r' w).trans (by simpa using hc2))
        intro wv sv v hveq; cases hveq
        exact ⟨rfl, hv0, hv1⟩
  · by_cases hc2 : r'.is_constant = true
    · obtain ⟨w2, s2, v2, rfl⟩ := UExpr.eq_value_of_constant r' hc2
      rw [fold_mult_case_ev w w2 s2 v2 l' (by simpa using hc1)] at h
      split_ifs at h with hv0 hv1
      · cases h; rfl
      · cases h; rw [UExpr.annotate_eq_self l' w hlw]; exact hl
      · cases h
        apply nfU_mult_intro w (l'.annotate w) (.Value w none v2)
          ((UExpr.annotate_eq_self l' w hlw).symm ▸ hl) rfl
          (UExpr.annotate_bitwidth l' w) rfl
          ((UExpr.annotate_is_constant l' w).trans (by simpa using hc1))
        intro wv sv v hveq; cases hveq
        exact ⟨rfl, hv0, hv1⟩
    · rw [fold_mult_case_ee w l' r' (by simpa using hc1) (by simpa using hc2)] at h
      cases h
      rw [UExpr.annotate_eq_self l' w hlw, UExpr.annotate_eq_self r' w hrw]
      apply nfU_mult_intro w l' r' hl hr hlw hrw (by simpa using hc1)
      intro wv sv v hveq; rw [hveq] at hc2; simp [UExpr.is_constant] at hc2

theorem fold_mult_case_id (w : UBitwidth) (l r : UExpr)
    (hnf : nfU (.Mult w none l r) = true) :
    fold_mult_case w l r = .ok (.Mult w none l r) := by
  obtain ⟨-, hl, hr, hlw, hrw, hlc, hv⟩ := nfU_mult_elim w none l r hnf
  by_cases hc2 : r.is_constant = true
  · obtain ⟨w2, s2, v2, rfl⟩ := UExpr.eq_value_of_constant r hc2
    obtain ⟨rfl, hv0, hv1⟩ := hv w2 s2 v2 rfl
    rw [fold_mult_case_ev w w2 none v2 l hlc, if_neg hv0, if_neg hv1,
      UExpr.annotate_eq_self l w hlw]
    have hw2 : w2 = w := by simpa [UExpr.bitwidth] using hrw
    rw [hw2]
  · rw [fold_mult_case_ee w l r hlc (by simpa using hc2),
      UExpr.annotate_eq_self l w hlw, UExpr.annotate_eq_self r w hrw]

theorem fold_div_case_vv (w w1 w2 : UBitwidth) (s1 s2 : Option Span)
    (v1 v2 : Nat) :
    fold_div_case w (.Value w1 s1 v1) (.Value w2 s2 v2) =
      if v2 = 0 then .error .panic
      else .ok (.Value w none (v1 / v2 % 2 ^ w.toNat)) := rfl

theorem fold_div_case_ev (w w2 : UBitwidth) (s2 : Option Span) (v : Nat)
    (e : UExpr) (he : e.is_constant = false) :
    fold_div_case w e (.Value w2 s2 v) =
      if v = 1 then .ok (e.annotate w)
      else .ok (.Div w none (e.annotate w) (.Value w none v)) := by
  cases e <;> first | rfl | simp [UExpr.is_constant] at he

theorem fold_div_case_en (w : UBitwidth) (e1 e2 : UExpr)
    (h2 : e2.is_constant = false) :
    fold_div_case w e1 e2 = .ok (.Div w none (e1.annotate w) (e2.annotate w)) := by
  cases e1 <;> cases e2 <;> first | rfl | simp [UExpr.is_constant] at h2

theorem nfU_div_intro (w : UBitwidth) (l r : UExpr)
    (hl : nfU l = true) (hr : nfU r = true)
    (hlw : l.bitwidth = w) (hrw : r.bitwidth = w)
    (hv : ∀ wv sv v, r = .Value wv sv v →
      l.is_constant = false ∧ sv = none ∧ v ≠ 1) :
    nfU (.Div w none l r) = true := by
  cases r with
  | Value wv sv v =>
      obtain ⟨hlc, rfl, hv1⟩ := hv wv sv v rfl
      simp_all [nfU]
  | _ => simp_all [nfU]

theorem nfU_div_elim (w : UBitwidth) (sp : Option Span) (l r : UExpr)
    (h : nfU (.Div w sp l r) = true) :
    sp = none ∧ nfU l = true ∧ nfU r = true ∧ l.bitwidth = w ∧
    r.bitwidth = w ∧
    (∀ wv sv v, r = .Value wv sv v →
      l.is_constant = false ∧ sv = none ∧ v ≠ 1) := by
  simp only [nfU, Bool.and_eq_true, beq_iff_eq, Option.isNone_iff_eq_none,
    Bool.not_eq_true'] at h
  obtain ⟨⟨⟨⟨⟨hsp, hl⟩, hr⟩, hlw⟩, hrw⟩, hm⟩ := h
  refine ⟨hsp, hl, hr, hlw, hrw, ?_⟩
  intro wv sv v hveq
  subst hveq
  simpa [Option.isNone_iff_eq_none, Bool.not_eq_true', and_assoc] using hm

theorem fold_div_case_nf (w : UBitwidth) (l' r' out : UExpr)
    (hl : nfU l' = true) (hr : nfU r' = true)
    (hlw : l'.bitwidth = w) (hrw : r'.bitwidth = w)
    (h : fold_div_case w l' r' = .ok out) : nfU out = true := by
  by_cases hc2 : r'.is_constant = true
  · obtain ⟨w2, s2, v2, rfl⟩ := UExpr.eq_value_of_constant r' hc2
    by_cases hc1 : l'.is_constant = true
    · obtain ⟨w1, s1, v1, rfl⟩ := UExpr.eq_value_of_constant l' hc1
      rw [fold_div_case_vv] at h
      split_ifs at h <;> cases h
      rfl
    · rw [fold_div_case_ev w w2 s2 v2 l' (by simpa using hc1)] at h
      split_ifs at h with hv
      · cases h; rw [UExpr.annotate_eq_self l' w hlw]; exact hl
      · cases h
        apply nfU_div_intro w (l'.annotate w) (.Value w none v2)
          ((UExpr.annotate_eq_self l' w hlw).symm ▸ hl) rfl
          (UExpr.annotate_bitwidth l' w) rfl
        intro wv sv v hveq; cases hveq
        exact ⟨(UExpr.annotate_is_constant l' w).trans (by simpa using hc1),
          rfl, hv⟩
  · rw [fold_div_case_en w l' r' (by simpa using hc2)] at h
    cases h
    rw [UExpr.annotate_eq_self l' w hlw, UExpr.annotate_eq_self r' w hrw]
    apply nfU_div_intro w l' r' hl hr hlw hrw
    intro wv sv v hveq; rw [hveq] at hc2; simp [UExpr.is_constant] at hc2

theorem fold_div_case_id (w : UBitwidth) (l r : UExpr)
    (hnf : nfU (.Div w none l r) = true) :
    fold_div_case w l r = .ok (.Div w none l r) := by
  obtain ⟨-, hl, hr, hlw, hrw, hv⟩ := nfU_div_elim w none l r hnf
  by_cases hc2 : r.is_constant = true
  · obtain ⟨w2, s2, v2, rfl⟩ := UExpr.eq_value_of_constant r hc2
    obtain ⟨hlc, rfl, hv1⟩ := hv w2 s2 v2 rfl
    rw [fold_div_case_ev w w2 none v2 l hlc, if_neg hv1,
      UExpr.annotate_eq_self l w hlw]
    have hw2 : w2 = w := by simpa [UExpr.bitwidth] using hrw
    rw [hw2]
  · rw [fold_div_case_en w l r (by simpa using hc2),
      UExpr.annotate_eq_self l w hlw, UExpr.annotate_eq_self r w hrw]

theorem fold_rem_case_vv (w w1 w2 : UBitwidth) (s1 s2 : Option Span)
    (v1 v2 : Nat) :
    fold_rem_case w (.Value w1 s1 v1) (.Value w2 s2 v2) =
      if v2 = 0 then .error .panic
      else .ok (.Value w none (v1 % v2 % 2 ^ w.toNat)) := rfl

theorem fold_rem_case_ev (w w2 : UBitwidth) (s2 : Option Span) (v : Nat)
    (e : UExpr) (he : e.is_constant = false) :
    fold_rem_case w e (.Value w2 s2 v) =
      if v = 1 then .ok (.Value w none 0)
      else .ok (.Rem w none (e.annotate w) (.Value w none v)) := by
  cases e <;> first | rfl | simp [UExpr.is_constant] at he

theorem fold_rem_case_en (w : UBitwidth) (e1 e2 : UExpr)
    (h2 : e2.is_constant = false) :
    fold_rem_case w e1 e2 = .ok (.Rem w none (e1.annotate w) (e2.annotate w)) := by
  cases e1 <;> cases e2 <;> first | rfl | simp [UExpr.is_constant] at h2

theorem nfU_rem_intro (w : UBitwidth) (l r : UExpr)
    (hl : nfU l = true) (hr : nfU r = true)
    (hlw : l.bitwidth = w) (hrw : r.bitwidth = w)
    (hv : ∀ wv sv v, r = .Value wv sv v →
      l.is_constant = false ∧ sv = none ∧ v ≠ 1) :
    nfU (.Rem w none l r) = true := by
  cases r with
  | Value wv sv v =>
      obtain ⟨hlc, rfl, hv1⟩ := hv wv sv v rfl
      simp_all [nfU]
  | _ => simp_all [nfU]

theorem nfU_rem_elim (w : UBitwidth) (sp : Option Span) (l r : UExpr)
    (h : nfU (.Rem w sp l r) = true) :
    sp = none ∧ nfU l = true ∧ nfU r = true ∧ l.bitwidth = w ∧
    r.bitwidth = w ∧
    (∀ wv sv v, r = .Value wv sv v →
      l.is_constant = false ∧ sv = none ∧ v ≠ 1) := by
  simp only [nfU, Bool.and_eq_true, beq_iff_eq, Option.isNone_iff_eq_none,
    Bool.not_eq_true'] at h
  obtain ⟨⟨⟨⟨⟨hsp, hl⟩, hr⟩, hlw⟩, hrw⟩, hm⟩ := h
  refine ⟨hsp, hl, hr, hlw, hrw, ?_⟩
  intro wv sv v hveq
  subst hveq
  simpa [Option.isNone_iff_eq_none, Bool.not_eq_true', and_assoc] using hm

theorem fold_rem_case_nf (w : UBitwidth) (l' r' out : UExpr)
    (hl : nfU l' = true) (hr : nfU r' = true)
    (hlw : l'.bitwidth = w) (hrw : r'.bitwidth = w)
    (h : fold_rem_case w l' r' = .ok out) : nfU out = true := by
  by_cases hc2 : r'.is_constant = true
  · obtain ⟨w2, s2, v2, rfl⟩ := UExpr.eq_value_of_constant r' hc2
    by_cases hc1 : l'.is_constant = true
    · obtain ⟨w1, s1, v1, rfl⟩ := UExpr.eq_value_of_constant l' hc1
      rw [fold_rem_case_vv] at h
      split_ifs at h <;> cases h
      rfl
    · rw [fold_rem_case_ev w w2 s2 v2 l' (by simpa using hc1)] at h
      split_ifs at h with hv
      · cases h; rfl
      · cases h
        apply nfU_rem_intro w (l'.annotate w) (.Value w none v2)
          ((UExpr.annotate_eq_self l' w hlw).symm ▸ hl) rfl
          (UExpr.annotate_bitwidth l' w) rfl
        intro wv sv v hveq; cases hveq
        exact ⟨(UExpr.annotate_is_constant l' w).trans (by simpa using hc1),
          rfl, hv⟩
  · rw [fold_rem_case_en w l' r' (by simpa using hc2)] at h
    cases h
    rw [UExpr.annotate_eq_self l' w hlw, UExpr.annotate_eq_self r' w hrw]
    apply nfU_rem_intro w l' r' hl hr hlw hrw
    intro wv sv v hveq; rw [hveq] at hc2; simp [UExpr.is_constant] at hc2

theorem fold_rem_case_id (w : UBitwidth) (l r : UExpr)
    (hnf : nfU (.Rem w none l r) = true) :
    fold_rem_case w l r = .ok (.Rem w none l r) := by
  obtain ⟨-, hl, hr, hlw, hrw, hv⟩ := nfU_rem_elim w none l r hnf
  by_cases hc2 : r.is_constant = true
  · obtain ⟨w2, s2, v2, rfl⟩ := UExpr.eq_value_of_constant r hc2
    obtain ⟨hlc, rfl, hv1⟩ := hv w2 s2 v2 rfl
    rw [fold_rem_case_ev w w2 none v2 l hlc, if_neg hv1,
      UExpr.annotate_eq_self l w hlw]
    have hw2 : w2 = w := by simpa [UExpr.bitwidth] using hrw
    rw [hw2]
  · rw [fold_rem_case_en w l r (by simpa using hc2),
      UExpr.annotate_eq_self l w hlw, UExpr.annotate_eq_self r w hrw]

/-- Reduction of a failed `Except` bind. -/
theorem err_bind {α β ε : Type _} (f : ε) (g : α → Except ε β) :
    (Except.error (α := α) f >>= g) = .error f := rfl

theorem fold_add_case_bitwidth (w : UBitwidth) (l' r' out : UExpr)
    (h : fold_add_case w l' r' = .ok out) : out.bitwidth = w := by
  cases l' <;> cases r' <;>
    simp only [fold_add_case] at h <;>
    (try split_ifs at h) <;>
    cases h <;> rfl

theorem fold_sub_case_bitwidth (w : UBitwidth) (l' r' out : UExpr)
    (h : fold_sub_case w l' r' = .ok out) : out.bitwidth = w := by
  cases l' <;> cases r' <;>
    simp only [fold_sub_case] at h <;>
    (try split_ifs at h) <;>
    cases h <;> rfl

theorem fold_floor_sub_case_bitwidth (w : UBitwidth) (l' r' out : UExpr)
    (h : fold_floor_sub_case w l' r' = .ok out) : out.bitwidth = w := by
  cases l' <;> cases r' <;>
    simp only [fold_floor_sub_case] at h <;>
    (try split_ifs at h) <;>
    cases h <;> rfl

theorem fold_mult_case_bitwidth (w : UBitwidth) (l' r' out : UExpr)
    (h : fold_mult_case w l' r' = .ok out) : out.bitwidth = w := by
  cases l' <;> cases r' <;>
    simp only [fold_mult_case] at h <;>
    (try split_ifs at h) <;>
    cases h <;> rfl

theorem fold_div_case_bitwidth (w : UBitwidth) (l' r' out : UExpr)
    (h : fold_div_case w l' r' = .ok out) : out.bitwidth = w := by
  cases l' <;> cases r' <;>
    simp only [fold_div_case] at h <;>
    (try split_ifs at h) <;>
    cases h <;> rfl

theorem fold_rem_case_bitwidth (w : UBitwidth) (l' r' out : UExpr)
    (h : fold_rem_case w l' r' = .ok out) : out.bitwidth = w := by
  cases l' <;> cases r' <;>
    simp only [fold_rem_case] at h <;>
    (try split_ifs at h) <;>
    cases h <;> rfl

/-- The wrapper of `fold_uint_expression` keeps the expression's
bitwidth (`UExpression { inner: fold_inner(..), ..e }`). -/
theorem fold_uint_expression_bitwidth (σ : Constants) (e e' : UExpr)
    (h : fold_uint_expression σ e = .ok e') : e'.bitwidth = e.bitwidth := by
  cases e with
  | Value w sp v => cases h; rfl
  | Identifier w sp id =>
      simp only [fold_uint_expression] at h
      cases hl : lookupConst σ id with
      | none => rw [hl] at h; cases h; rfl
      | some te =>
          rw [hl] at h
          cases te with
          | Uint u => cases h; exact UExpr.annotate_bitwidth u w
          | Boolean b => cases h
  | Add w sp l r =>
      simp only [fold_uint_expression] at h
      cases hle : fold_uint_expression σ l with
      | error f => rw [hle, err_bind] at h; cases h
      | ok l' =>
          cases hre : fold_uint_expression σ r with
          | error f => rw [hle, ok_bind, hre, err_bind] at h; cases h
          | ok r' =>
              rw [hle, ok_bind, hre, ok_bind] at h
              exact fold_add_case_bitwidth w l' r' e' h
  | Sub w sp l r =>
      simp only [fold_uint_expression] at h
      cases hle : fold_uint_expression σ l with
      | error f => rw [hle, err_bind] at h; cases h
      | ok l' =>
          cases hre : fold_uint_expression σ r with
          | error f => rw [hle, ok_bind, hre, err_bind] at h; cases h
          | ok r' =>
              rw [hle, ok_bind, hre, ok_bind] at h
              exact fold_sub_case_bitwidth w l' r' e' h
  | FloorSub w sp l r =>
      simp only [fold_uint_expression] at h
      cases hle : fold_uint_expression σ l with
      | error f => rw [hle, err_bind] at h; cases h
      | ok l' =>
          cases hre : fold_uint_expression σ r with
          | error f => rw [hle, ok_bind, hre, err_bind] at h; cases h
          | ok r' =>
              rw [hle, ok_bind, hre, ok_bind] at h
              exact fold_floor_sub_case_bitwidth w l' r' e' h
  | Mult w sp l r =>
      simp only [fold_uint_expression] at h
      cases hle : fold_uint_expression σ l with
      | error f => rw [hle, err_bind] at h; cases h
      | ok l' =>
          cases hre : fold_uint_expression σ r with
          | error f => rw [hle, ok_bind, hre, err_bind] at h; cases h
          | ok r' =>
              rw [hle, ok_bind, hre, ok_bind] at h
              exact fold_mult_case_bitwidth w l' r' e' h
  | Div w sp l r =>
      simp only [fold_uint_expression] at h
      cases hle : fold_uint_expression σ l with
      | error f => rw [hle, err_bind] at h; cases h
      | ok l' =>
          cases hre : fold_uint_expression σ r with
          | error f => rw [hle, ok_bind, hre, err_bind] at h; cases h
          | ok r' =>
              rw [hle, ok_bind, hre, ok_bind] at h
              exact fold_div_case_bitwidth w l' r' e' h
  | Rem w sp l r =>
      simp only [fold_uint_expression] at h
      cases hle : fold_uint_expression σ l with
      | error f => rw [hle, err_bind] at h; cases h
      | ok l' =>
          cases hre : fold_uint_expression σ r with
          | error f => rw [hle, ok_bind, hre, err_bind] at h; cases h
          | ok r' =>
              rw [hle, ok_bind, hre, ok_bind] at h
              exact fold_rem_case_bitwidth w l' r' e' h

theorem lookupConst_mem (σ : Constants) (id : Ident) (v : TypedExpression)
    (h : lookupConst σ id = some v) : ∃ p ∈ σ, p.2 = v := by
  simp only [lookupConst, Option.map_eq_some'] at h
  obtain ⟨p, hfind, hv⟩ := h
  exact ⟨p, List.mem_of_find?_eq_some hfind, hv⟩

/-- Folding a uint expression of a well-typed tree with a
canonical-constant map yields a normal form. -/
theorem fold_uint_expression_nf (σ : Constants) (hσ : CanonicalConsts σ)
    (e : UExpr) (hwt : wtU e = true) :
    ∀ e', fold_uint_expression σ e = .ok e' → nfU e' = true := by
  induction e with
  | Value w sp v => intro e' h; cases h; rfl
  | Identifier w sp id =>
      intro e' h
      simp only [fold_uint_expression] at h
      cases hl : lookupConst σ id with
      | none => rw [hl] at h; cases h; rfl
      | some te =>
          rw [hl] at h
          cases te with
          | Boolean b => cases h
          | Uint u =>
              cases h
              obtain ⟨p, hp, hpe⟩ := lookupConst_mem σ id (.Uint u) hl
              have hc := hσ p hp
              rw [hpe] at hc
              cases u with
              | Value wu su vu =>
                  cases su with
                  | none => rfl
                  | some s => simp [isCanonicalConst] at hc
              | Identifier wu su idu => simp [isCanonicalConst] at hc
              | Add wu su a b => simp [isCanonicalConst] at hc
              | Sub wu su a b => simp [isCanonicalConst] at hc
              | FloorSub wu su a b => simp [isCanonicalConst] at hc
              | Mult wu su a b => simp [isCanonicalConst] at hc
              | Div wu su a b => simp [isCanonicalConst] at hc
              | Rem wu su a b => simp [isCanonicalConst] at hc
  | Add w sp l r ihl ihr =>
      intro e' h
      simp only [wtU, Bool.and_eq_true, beq_iff_eq] at hwt
      obtain ⟨⟨⟨hlw, hrw⟩, hwl⟩, hwr⟩ := hwt
      simp only [fold_uint_expression] at h
      cases hle : fold_uint_expression σ l with
      | error f => rw [hle, err_bind] at h; cases h
      | ok l' =>
          cases hre : fold_uint_expression σ r with
          | error f => rw [hle, ok_bind, hre, err_bind] at h; cases h
          | ok r' =>
              rw [hle, ok_bind, hre, ok_bind] at h
              exact fold_add_case_nf w l' r' e' (ihl hwl l' hle) (ihr hwr r' hre)
                ((fold_uint_expression_bitwidth σ l l' hle).trans hlw)
                ((fold_uint_expression_bitwidth σ r r' hre).trans hrw) h
  | Sub w sp l r ihl ihr =>
      intro e' h
      simp only [wtU, Bool.and_eq_true, beq_iff_eq] at hwt
      obtain ⟨⟨⟨hlw, hrw⟩, hwl⟩, hwr⟩ := hwt
      simp only [fold_uint_expression] at h
      cases hle : fold_uint_expression σ l with
      | error f => rw [hle, err_bind] at h; cases h
      | ok l' =>
          cases hre : fold_uint_expression σ r with
          | error f => rw [hle, ok_bind, hre, err_bind] at h; cases h
          | ok r' =>
              rw [hle, ok_bind, hre, ok_bind] at h
              exact fold_sub_case_nf w l' r' e' (ihl hwl l' hle) (ihr hwr r' hre)
                ((fold_uint_expression_bitwidth σ l l' hle).trans hlw)
                ((fold_uint_expression_bitwidth σ r r' hre).trans hrw) h
  | FloorSub w sp l r ihl ihr =>
      intro e' h
      simp only [wtU, Bool.and_eq_true, beq_iff_eq] at hwt
      obtain ⟨⟨⟨hlw, hrw⟩, hwl⟩, hwr⟩ := hwt
      simp only [fold_uint_expression] at h
      cases hle : fold_uint_expression σ l with
      | error f => rw [hle, err_bind] at h; cases h
      | ok l' =>
          cases hre : fold_uint_expression σ r with
          | error f => rw [hle, ok_bind, hre, err_bind] at h; cases h
          | ok r' =>
              rw [hle, ok_bind, hre, ok_bind] at h
              exact fold_floor_sub_case_nf w l' r' e' (ihl hwl l' hle) (ihr hwr r' hre)
                ((fold_uint_expression_bitwidth σ l l' hle).trans hlw)
                ((fold_uint_expression_bitwidth σ r r' hre).trans hrw) h
  | Mult w sp l r ihl ihr =>
      intro e' h
      simp only [wtU, Bool.and_eq_true, beq_iff_eq] at hwt
      obtain ⟨⟨⟨hlw, hrw⟩, hwl⟩, hwr⟩ := hwt
      simp only [fold_uint_expression] at h
      cases hle : fold_uint_expression σ l with
      | error f => rw [hle, err_bind] at h; cases h
      | ok l' =>
          cases hre : fold_uint_expression σ r with
          | error f => rw [hle, ok_bind, hre, err_bind] at h; cases h
          | ok r' =>
              rw [hle, ok_bind, hre, ok_bind] at h
              exact fold_mult_case_nf w l' r' e' (ihl hwl l' hle) (ihr hwr r' hre)
                ((fold_uint_expression_bitwidth σ l l' hle).trans hlw)
                ((fold_uint_expression_bitwidth σ r r' hre).trans hrw) h
  | Div w sp l r ihl ihr =>
      intro e' h
      simp only [wtU, Bool.and_eq_true, beq_iff_eq] at hwt
      obtain ⟨⟨⟨hlw, hrw⟩, hwl⟩, hwr⟩ := hwt
      simp only [fold_uint_expression] at h
      cases hle : fold_uint_expression σ l with
      | error f => rw [hle, err_bind] at h; cases h
      | ok l' =>
          cases hre : fold_uint_expression σ r with
          | error f => rw [hle, ok_bind, hre, err_bind] at h; cases h
          | ok r' =>
              rw [hle, ok_bind, hre, ok_bind] at h
              exact fold_div_case_nf w l' r' e' (ihl hwl l' hle) (ihr hwr r' hre)
                ((fold_uint_expression_bitwidth σ l l' hle).trans hlw)
                ((fold_uint_expression_bitwidth σ r r' hre).trans hrw) h
  | Rem w sp l r ihl ihr =>
      intro e' h
      simp only [wtU, Bool.and_eq_true, beq_iff_eq] at hwt
      obtain ⟨⟨⟨hlw, hrw⟩, hwl⟩, hwr⟩ := hwt
      simp only [fold_uint_expression] at h
      cases hle : fold_uint_expression σ l with
      | error f => rw [hle, err_bind] at h; cases h
      | ok l' =>
          cases hre : fold_uint_expression σ r with
          | error f => rw [hle, ok_bind, hre, err_bind] at h; cases h
          | ok r' =>
              rw [hle, ok_bind, hre, ok_bind] at h
              exact fold_rem_case_nf w l' r' e' (ihl hwl l' hle) (ihr hwr r' hre)
                ((fold_uint_expression_bitwidth σ l l' hle).trans hlw)
                ((fold_uint_expression_bitwidth σ r r' hre).trans hrw) h

/-- Folding with an empty constants map is the identity on uint normal
forms. -/
theorem fold_uint_expression_id (e : UExpr) (h : nfU e = true) :
    fold_uint_expression [] e = .ok e := by
  induction e with
  | Value w sp v => rfl
  | Identifier w sp id => rfl
  | Add w sp l r ihl ihr =>
      obtain ⟨rfl, hl, hr, -, -, -, -⟩ := nfU_add_elim w sp l r h
      simp only [fold_uint_expression]
      rw [ihl hl, ok_bind, ihr hr, ok_bind]
      exact fold_add_case_id w l r h
  | Sub w sp l r ihl ihr =>
      obtain ⟨rfl, hl, hr, -, -, -⟩ := nfU_sub_elim w sp l r h
      simp only [fold_uint_expression]
      rw [ihl hl, ok_bind, ihr hr, ok_bind]
      exact fold_sub_case_id w l r h
  | FloorSub w sp l r ihl ihr =>
      obtain ⟨rfl, hl, hlw, hlc, sv, v, hveq, hv0⟩ := nfU_floor_sub_elim w sp l r h
      simp only [fold_uint_expression]
      rw [ihl hl, ok_bind, hveq]
      rw [show fold_uint_expression [] (.Value w sv v) = .ok (.Value w sv v) from rfl,
        ok_bind]
      rw [← hveq]
      exact fold_floor_sub_case_id w l r h
  | Mult w sp l r ihl ihr =>
      obtain ⟨rfl, hl, hr, -, -, -, -⟩ := nfU_mult_elim w sp l r h
      simp only [fold_uint_expression]
      rw [ihl hl, ok_bind, ihr hr, ok_bind]
      exact fold_mult_case_id w l r h
  | Div w sp l r ihl ihr =>
      obtain ⟨rfl, hl, hr, -, -, -⟩ := nfU_div_elim w sp l r h
      simp only [fold_uint_expression]
      rw [ihl hl, ok_bind, ihr hr, ok_bind]
      exact fold_div_case_id w l r h
  | Rem w sp l r ihl ihr =>
      obtain ⟨rfl, hl, hr, -, -, -⟩ := nfU_rem_elim w sp l r h
      simp only [fold_uint_expression]
      rw [ihl hl, ok_bind, ihr hr, ok_bind]
      exact fold_rem_case_id w l r h

/-! ### Normal-form lemmas for the boolean fold -/

theorem BExpr.bool_eq_value_of_constant (e : BExpr) (h : e.is_constant = true) :
    ∃ sp v, e = .Value sp v := by
  cases e <;> simp_all [BExpr.is_constant]

theorem fold_lt_case_vv (w1 w2 : UBitwidth) (s1 s2 : Option Span)
    (n1 n2 : Nat) :
    fold_lt_case (.Value w1 s1 n1) (.Value w2 s2 n2) =
      .ok (.Value none (decide (n1 < n2))) := rfl

theorem fold_lt_case_nv (e1 e2 : UExpr)
    (h : (e1.is_constant && e2.is_constant) = false) :
    fold_lt_case e1 e2 = .ok (.UintLt none e1 e2) := by
  cases e1 <;> cases e2 <;> first | rfl | simp [UExpr.is_constant] at h

theorem fold_lt_case_nf (e1 e2 : UExpr) (out : BExpr)
    (h1 : nfU e1 = true) (h2 : nfU e2 = true)
    (h : fold_lt_case e1 e2 = .ok out) : nfB out = true := by
  by_cases hc : (e1.is_constant && e2.is_constant) = true
  · simp only [Bool.and_eq_true] at hc
    obtain ⟨w1, s1, n1, rfl⟩ := UExpr.eq_value_of_constant e1 hc.1
    obtain ⟨w2, s2, n2, rfl⟩ := UExpr.eq_value_of_constant e2 hc.2
    rw [fold_lt_case_vv] at h
    cases h; rfl
  · have hcf : (e1.is_constant && e2.is_constant) = false := Bool.eq_false_iff.mpr hc
    rw [fold_lt_case_nv e1 e2 hcf] at h
    cases h
    simp [nfB, h1, h2, hcf]

theorem nfB_lt_elim (sp : Option Span) (l r : UExpr)
    (h : nfB (.UintLt sp l r) = true) :
    sp = none ∧ nfU l = true ∧ nfU r = true ∧
    (l.is_constant && r.is_constant) = false := by
  simp only [nfB, Bool.and_eq_true, Option.isNone_iff_eq_none,
    Bool.not_eq_true'] at h
  obtain ⟨⟨⟨hsp, hl⟩, hr⟩, hclause⟩ := h
  exact ⟨hsp, hl, hr, hclause⟩

theorem fold_lt_case_id (l r : UExpr)
    (hc : (l.is_constant && r.is_constant) = false) :
    fold_lt_case l r = .ok (.UintLt none l r) :=
  fold_lt_case_nv l r hc

theorem fold_and_case_vv (s1 s2 : Option Span) (v1 v2 : Bool) :
    fold_and_case (.Value s1 v1) (.Value s2 v2) =
      .ok (.Value none (v1 && v2)) := rfl

theorem fold_and_case_ev (s2 : Option Span) (v : Bool) (e : BExpr)
    (he : e.is_constant = false) :
    fold_and_case e (.Value s2 v) =
      if v then .ok e else .ok (.Value none false) := by
  cases e <;> first | rfl | simp [BExpr.is_constant] at he

theorem fold_and_case_ve (s1 : Option Span) (v : Bool) (e : BExpr)
    (he : e.is_constant = false) :
    fold_and_case (.Value s1 v) e =
      if v then .ok e else .ok (.Value none false) := by
  cases e <;> first | rfl | simp [BExpr.is_constant] at he

theorem fold_and_case_ee (e1 e2 : BExpr)
    (h1 : e1.is_constant = false) (h2 : e2.is_constant = false) :
    fold_and_case e1 e2 = .ok (.And none e1 e2) := by
  cases e1 <;> cases e2 <;> first | rfl | simp [BExpr.is_constant] at h1 h2

theorem fold_and_case_nf (e1 e2 : BExpr) (out : BExpr)
    (h1 : nfB e1 = true) (h2 : nfB e2 = true)
    (h : fold_and_case e1 e2 = .ok out) : nfB out = true := by
  by_cases hc1 : e1.is_constant = true
  · obtain ⟨s1, v1, rfl⟩ := BExpr.bool_eq_value_of_constant e1 hc1
    by_cases hc2 : e2.is_constant = true
    · obtain ⟨s2, v2, rfl⟩ := BExpr.bool_eq_value_of_constant e2 hc2
      rw [fold_and_case_vv] at h
      cases h; rfl
    · rw [fold_and_case_ve s1 v1 e2 (by simpa using hc2)] at h
      split_ifs at h <;> cases h
      · exact h2
      · rfl
  · by_cases hc2 : e2.is_constant = true
    · obtain ⟨s2, v2, rfl⟩ := BExpr.bool_eq_value_of_constant e2 hc2
      rw [fold_and_case_ev s2 v2 e1 (by simpa using hc1)] at h
      split_ifs at h <;> cases h
      · exact h1
      · rfl
    · rw [fold_and_case_ee e1 e2 (by simpa using hc1) (by simpa using hc2)] at h
      cases h
      simp_all [nfB]

theorem nfB_and_elim (sp : Option Span) (l r : BExpr)
    (h : nfB (.And sp l r) = true) :
    sp = none ∧ nfB l = true ∧ nfB r = true ∧
    l.is_constant = false ∧ r.is_constant = false := by
  simpa [nfB, Bool.and_eq_true, Option.isNone_iff_eq_none,
    Bool.not_eq_true', and_assoc] using h

theorem fold_or_case_vv (s1 s2 : Option Span) (v1 v2 : Bool) :
    fold_or_case (.Value s1 v1) (.Value s2 v2) =
      .ok (.Value none (v1 || v2)) := rfl

theorem fold_or_case_ev (s2 : Option Span) (v : Bool) (e : BExpr)
    (he : e.is_constant = false) :
    fold_or_case e (.Value s2 v) =
      if v then .ok (.Value none true) else .ok e := by
  cases e <;> first | rfl | simp [BExpr.is_constant] at he

theorem fold_or_case_ve (s1 : Option Span) (v : Bool) (e : BExpr)
    (he : e.is_constant = false) :
    fold_or_case (.Value s1 v) e =
      if v then .ok (.Value none true) else .ok e := by
  cases e <;> first | rfl | simp [BExpr.is_constant] at he

theorem fold_or_case_ee (e1 e2 : BExpr)
    (h1 : e1.is_constant = false) (h2 : e2.is_constant = false) :
    fold_or_case e1 e2 = .ok (.Or none e1 e2) := by
  cases e1 <;> cases e2 <;> first | rfl | simp [BExpr.is_constant] at h1 h2

theorem fold_or_case_nf (e1 e2 : BExpr) (out : BExpr)
    (h1 : nfB e1 = true) (h2 : nfB e2 = true)
    (h : fold_or_case e1 e2 = .ok out) : nfB out = true := by
  by_cases hc1 : e1.is_constant = true
  · obtain ⟨s1, v1, rfl⟩ := BExpr.bool_eq_value_of_constant e1 hc1
    by_cases hc2 : e2.is_constant = true
    · obtain ⟨s2, v2, rfl⟩ := BExpr.bool_eq_value_of_constant e2 hc2
      rw [fold_or_case_vv] at h
      cases h; rfl
    · rw [fold_or_case_ve s1 v1 e2 (by simpa using hc2)] at h
      split_ifs at h <;> cases h
      · rfl
      · exact h2
  · by_cases hc2 : e2.is_constant = true
    · obtain ⟨s2, v2, rfl⟩ := BExpr.bool_eq_value_of_constant e2 hc2
      rw [fold_or_case_ev s2 v2 e1 (by simpa using hc1)] at h
      split_ifs at h <;> cases h
      · rfl
      · exact h1
    · rw [fold_or_case_ee e1 e2 (by simpa using hc1) (by simpa using hc2)] at h
      cases h
      simp_all [nfB]

theorem nfB_or_elim (sp : Option Span) (l r : BExpr)
    (h : nfB (.Or sp l r) = true) :
    sp = none ∧ nfB l = true ∧ nfB r = true ∧
    l.is_constant = false ∧ r.is_constant = false := by
  simpa [nfB, Bool.and_eq_true, Option.isNone_iff_eq_none,
    Bool.not_eq_true', and_assoc] using h

theorem fold_not_case_v (s : Option Span) (v : Bool) :
    fold_not_case (.Value s v) = .ok (.Value none (!v)) := rfl

theorem fold_not_case_n (e : BExpr) (he : e.is_constant = false) :
    fold_not_case e = .ok (.Not none e) := by
  cases e <;> first | rfl | simp [BExpr.is_constant] at he

theorem fold_not_case_nf (e out : BExpr) (h1 : nfB e = true)
    (h : fold_not_case e = .ok out) : nfB out = true := by
  by_cases hc : e.is_constant = true
  · obtain ⟨s, v, rfl⟩ := BExpr.bool_eq_value_of_constant e hc
    rw [fold_not_case_v] at h
    cases h; rfl
  · rw [fold_not_case_n e (by simpa using hc)] at h
    cases h
    simp [nfB, h1, (by simpa using hc : e.is_constant = false)]

theorem nfB_not_elim (sp : Option Span) (e : BExpr)
    (h : nfB (.Not sp e) = true) :
    sp = none ∧ nfB e = true ∧ e.is_constant = false := by
  simpa [nfB, Bool.and_eq_true, Option.isNone_iff_eq_none,
    Bool.not_eq_true', and_assoc] using h

theorem nfB_eq_elim (sp : Option Span) (l r : UExpr)
    (h : nfB (.UintEq sp l r) = true) :
    sp = none ∧ nfU l = true ∧ nfU r = true ∧ l.bitwidth = r.bitwidth ∧
    l ≠ r ∧ (l.is_constant && r.is_constant) = false := by
  simp only [nfB, Bool.and_eq_true, Option.isNone_iff_eq_none,
    Bool.not_eq_true', beq_iff_eq] at h
  obtain ⟨⟨⟨⟨⟨hsp, hl⟩, hr⟩, hbw⟩, hne⟩, hclause⟩ := h
  exact ⟨hsp, hl, hr, hbw, by simpa using hne, hclause⟩

theorem fold_eq_uint_nf (σ : Constants) (hσ : CanonicalConsts σ)
    (l r : UExpr) (hwl : wtU l = true) (hwr : wtU r = true)
    (out : BExpr) (h : fold_eq_uint σ l r = .ok out) : nfB out = true := by
  simp only [fold_eq_uint] at h
  cases hle : fold_uint_expression σ l with
  | error f => rw [hle, err_bind] at h; cases h
  | ok l' =>
      cases hre : fold_uint_expression σ r with
      | error f => rw [hle, ok_bind, hre, err_bind] at h; cases h
      | ok r' =>
          rw [hle, ok_bind, hre, ok_bind] at h
          split_ifs at h with hbw heq hc <;> cases h
          · rfl
          · rfl
          · have hl' := fold_uint_expression_nf σ hσ l hwl l' hle
            have hr' := fold_uint_expression_nf σ hσ r hwr r' hre
            have hbw' : l'.bitwidth = r'.bitwidth := not_ne_iff.mp hbw
            have hne : (l' == r') = false := beq_eq_false_iff_ne.mpr heq
            have hcc : (l'.is_constant && r'.is_constant) = false :=
              Bool.eq_false_iff.mpr hc
            simp [nfB, hl', hr', hbw', hne, hcc]

theorem fold_eq_uint_id (l r : UExpr) (hl : nfU l = true) (hr : nfU r = true)
    (hbw : l.bitwidth = r.bitwidth) (hne : l ≠ r)
    (hc : (l.is_constant && r.is_constant) = false) :
    fold_eq_uint [] l r = .ok (.UintEq none l r) := by
  simp only [fold_eq_uint]
  rw [fold_uint_expression_id l hl, ok_bind, fold_uint_expression_id r hr,
    ok_bind]
  rw [if_neg (not_ne_iff.mpr hbw), if_neg hne, if_neg (by simp [hc])]

/-- Folding a boolean expression of a well-typed tree with a
canonical-constant map yields a normal form. -/
theorem fold_boolean_expression_nf (σ : Constants) (hσ : CanonicalConsts σ)
    (e : BExpr) (hwt : wtB e = true) :
    ∀ e', fold_boolean_expression σ e = .ok e' → nfB e' = true := by
  induction e with
  | Value sp v => intro e' h; cases h; rfl
  | Identifier sp id =>
      intro e' h
      simp only [fold_boolean_expression] at h
      cases hl : lookupConst σ id with
      | none => rw [hl] at h; cases h; rfl
      | some te =>
          rw [hl] at h
          cases te with
          | Uint u => cases h
          | Boolean b =>
              cases h
              obtain ⟨p, hp, hpe⟩ := lookupConst_mem σ id _ hl
              have hc := hσ p hp
              rw [hpe] at hc
              cases e' with
              | Value sb vb =>
                  cases sb with
                  | none => rfl
                  | some s => simp [isCanonicalConst] at hc
              | Identifier sb idb => simp [isCanonicalConst] at hc
              | UintLt sb a c => simp [isCanonicalConst] at hc
              | UintEq sb a c => simp [isCanonicalConst] at hc
              | And sb a c => simp [isCanonicalConst] at hc
              | Or sb a c => simp [isCanonicalConst] at hc
              | Not sb a => simp [isCanonicalConst] at hc
  | UintLt sp l r =>
      intro e' h
      simp only [wtB, Bool.and_eq_true] at hwt
      simp only [fold_boolean_expression] at h
      cases hle : fold_uint_expression σ l with
      | error f => rw [hle, err_bind] at h; cases h
      | ok l' =>
          cases hre : fold_uint_expression σ r with
          | error f => rw [hle, ok_bind, hre, err_bind] at h; cases h
          | ok r' =>
              rw [hle, ok_bind, hre, ok_bind] at h
              exact fold_lt_case_nf l' r' e'
                (fold_uint_expression_nf σ hσ l hwt.1 l' hle)
                (fold_uint_expression_nf σ hσ r hwt.2 r' hre) h
  | UintEq sp l r =>
      intro e' h
      simp only [wtB, Bool.and_eq_true] at hwt
      exact fold_eq_uint_nf σ hσ l r hwt.1 hwt.2 e' h
  | And sp l r ihl ihr =>
      intro e' h
      simp only [wtB, Bool.and_eq_true] at hwt
      simp only [fold_boolean_expression] at h
      cases hle : fold_boolean_expression σ l with
      | error f => rw [hle, err_bind] at h; cases h
      | ok l' =>
          cases hre : fold_boolean_expression σ r with
          | error f => rw [hle, ok_bind, hre, err_bind] at h; cases h
          | ok r' =>
              rw [hle, ok_bind, hre, ok_bind] at h
              exact fold_and_case_nf l' r' e' (ihl hwt.1 l' hle)
                (ihr hwt.2 r' hre) h
  | Or sp l r ihl ihr =>
      intro e' h
      simp only [wtB, Bool.and_eq_true] at hwt
      simp only [fold_boolean_expression] at h
      cases hle : fold_boolean_expression σ l with
      | error f => rw [hle, err_bind] at h; cases h
      | ok l' =>
          cases hre : fold_boolean_expression σ r with
          | error f => rw [hle, ok_bind, hre, err_bind] at h; cases h
          | ok r' =>
              rw [hle, ok_bind, hre, ok_bind] at h
              exact fold_or_case_nf l' r' e' (ihl hwt.1 l' hle)
                (ihr hwt.2 r' hre) h
  | Not sp i ih =>
      intro e' h
      simp only [wtB] at hwt
      simp only [fold_boolean_expression] at h
      cases hie : fold_boolean_expression σ i with
      | error f => rw [hie, err_bind] at h; cases h
      | ok i' =>
          rw [hie, ok_bind] at h
          exact fold_not_case_nf i' e' (ih hwt i' hie) h

/-- Folding with an empty constants map is the identity on boolean
normal forms. -/
theorem fold_boolean_expression_id (e : BExpr) (h : nfB e = true) :
    fold_boolean_expression [] e = .ok e := by
  induction e with
  | Value sp v => rfl
  | Identifier sp id => rfl
  | UintLt sp l r =>
      obtain ⟨rfl, hl, hr, hc⟩ := nfB_lt_elim sp l r h
      simp only [fold_boolean_expression]
      rw [fold_uint_expression_id l hl, ok_bind,
        fold_uint_expression_id r hr, ok_bind]
      exact fold_lt_case_id l r hc
  | UintEq sp l r =>
      obtain ⟨rfl, hl, hr, hbw, hne, hc⟩ := nfB_eq_elim sp l r h
      simp only [fold_boolean_expression]
      exact fold_eq_uint_id l r hl hr hbw hne hc
  | And sp l r ihl ihr =>
      obtain ⟨rfl, hl, hr, hlc, hrc⟩ := nfB_and_elim sp l r h
      simp only [fold_boolean_expression]
      rw [ihl hl, ok_bind, ihr hr, ok_bind]
      exact fold_and_case_ee l r hlc hrc
  | Or sp l r ihl ihr =>
      obtain ⟨rfl, hl, hr, hlc, hrc⟩ := nfB_or_elim sp l r h
      simp only [fold_boolean_expression]
      rw [ihl hl, ok_bind, ihr hr, ok_bind]
      exact fold_or_case_ee l r hlc hrc
  | Not sp i ih =>
      obtain ⟨rfl, hi, hic⟩ := nfB_not_elim sp i h
      simp only [fold_boolean_expression]
      rw [ih hi, ok_bind]
      exact fold_not_case_n i hic

/-! ### Replay of the propagator on its own output -/

theorem map_ok {α β ε : Type _} (a : α) (f : α → β) :
    (Except.ok (ε := ε) a).map f = .ok (f a) := rfl

theorem map_err {α β ε : Type _} (b : ε) (f : α → β) :
    (Except.error (α := α) b).map f = .error b := rfl

/-- `fold_expression` production of normal forms. -/
theorem fold_expression_nf (σ : Constants) (hσ : CanonicalConsts σ)
    (e : TypedExpression) (hwt : e.wt = true) (e' : TypedExpression)
    (h : fold_expression σ e = .ok e') : e'.nf = true := by
  cases e with
  | Uint u =>
      cases hf : fold_uint_expression σ u with
      | error f => rw [fold_expression, hf, map_err] at h; cases h
      | ok u' =>
          rw [fold_expression, hf, map_ok] at h
          cases h
          exact fold_uint_expression_nf σ hσ u hwt u' hf
  | Boolean b =>
      cases hf : fold_boolean_expression σ b with
      | error f => rw [fold_expression, hf, map_err] at h; cases h
      | ok b' =>
          rw [fold_expression, hf, map_ok] at h
          cases h
          exact fold_boolean_expression_nf σ hσ b hwt b' hf

/-- `fold_expression` with an empty map is the identity on normal forms. -/
theorem fold_expression_id (e : TypedExpression) (h : e.nf = true) :
    fold_expression [] e = .ok e := by
  cases e with
  | Uint u => rw [fold_expression, fold_uint_expression_id u h, map_ok]
  | Boolean b => rw [fold_expression, fold_boolean_expression_id b h, map_ok]

/-- The identifier defined by a statement, if any. -/
def defId : TypedStatement → Option Ident
  | .definition (.identifier v) _ => some v.id
  | _ => none

/-- Identifiers defined by the top-level statements of a program. -/
def defIds (p : List TypedStatement) : List Ident := p.filterMap defId

/-- One step of the replay argument: folding a well-typed statement
whose defined identifier (if any) is unbound produces a canonical map,
a block of statements on which a fresh propagator run is the identity,
and binds no identifier that was unbound other than its own. -/
theorem fold_statement_replay (σ : Constants) (hσ : CanonicalConsts σ)
    (s : TypedStatement) (hwt : s.wt = true)
    (hfresh : ∀ id, defId s = some id → lookupConst σ id = none)
    (σ' : Constants) (out : List TypedStatement)
    (h : fold_statement σ s = .ok (σ', out)) :
    CanonicalConsts σ' ∧
    fold_statements [] out = .ok ([], out) ∧
    (∀ id, lookupConst σ id = none → defId s ≠ some id →
      lookupConst σ' id = none) := by
  cases s with
  | definition a rhs =>
      cases a with
      | identifier var =>
          simp only [fold_statement] at h
          cases hfe : fold_expression σ rhs with
          | error f => rw [hfe, err_bind] at h; cases h
          | ok expr =>
              rw [hfe, ok_bind] at h
              have hnf : expr.nf = true := fold_expression_nf σ hσ rhs hwt expr hfe
              have hb : lookupConst σ var.id = none :=
                hfresh var.id (by simp [defId])
              by_cases hty : (TypedAssignee.identifier var).get_type ≠ expr.get_type
              · rw [if_pos hty] at h; cases h
              · rw [if_neg hty] at h
                by_cases hconst : expr.is_constant = true
                · rw [if_pos hconst, if_neg (by simp [hb])] at h
                  cases h
                  refine ⟨CanonicalConsts_insert σ var.id _ hσ
                      (canonical_of_constant expr hconst), rfl, ?_⟩
                  intro id hid hne
                  have hne' : id ≠ var.id := fun heq => hne (by simp [defId, heq])
                  rw [lookupConst_insert_ne σ id var.id _ hne']
                  exact hid
                · rw [if_neg hconst,
                    show removeConst σ var.id = (none, eraseConst σ var.id) by
                      rw [removeConst, hb]] at h
                  cases h
                  refine ⟨CanonicalConsts_erase σ var.id hσ, ?_, ?_⟩
                  · simp only [fold_statements, fold_statement]
                    rw [fold_expression_id expr hnf, ok_bind, if_neg hty,
                      if_neg hconst,
                      show removeConst [] var.id = (none, []) from rfl]
                    rfl
                  · intro id hid hne
                    have hne' : id ≠ var.id := fun heq => hne (by simp [defId, heq])
                    rw [lookupConst_erase_ne σ id var.id hne']
                    exact hid
  | assertion e kind =>
      simp only [fold_statement] at h
      cases hfe : fold_boolean_expression σ e with
      | error f => rw [hfe, err_bind] at h; cases h
      | ok expr =>
          rw [hfe, ok_bind] at h
          have hnf : nfB expr = true :=
            fold_boolean_expression_nf σ hσ e hwt expr hfe
          cases expr with
          | Value sp v =>
              cases v with
              | true => cases h
              | false =>
                  cases h
                  exact ⟨hσ, rfl, fun id hid _ => hid⟩
          | Identifier sp id =>
              cases h
              exact ⟨hσ, rfl, fun i hi _ => hi⟩
          | UintLt sp l r =>
              cases h
              refine ⟨hσ, ?_, fun i hi _ => hi⟩
              simp only [fold_statements, fold_statement]
              rw [fold_boolean_expression_id _ hnf, ok_bind]
              rfl
          | UintEq sp l r =>
              cases h
              refine ⟨hσ, ?_, fun i hi _ => hi⟩
              simp only [fold_statements, fold_statement]
              rw [fold_boolean_expression_id _ hnf, ok_bind]
              rfl
          | And sp l r =>
              cases h
              refine ⟨hσ, ?_, fun i hi _ => hi⟩
              simp only [fold_statements, fold_statement]
              rw [fold_boolean_expression_id _ hnf, ok_bind]
              rfl
          | Or sp l r =>
              cases h
              refine ⟨hσ, ?_, fun i hi _ => hi⟩
              simp only [fold_statements, fold_statement]
              rw [fold_boolean_expression_id _ hnf, ok_bind]
              rfl
          | Not sp i =>
              cases h
              refine ⟨hσ, ?_, fun i hi _ => hi⟩
              simp only [fold_statements, fold_statement]
              rw [fold_boolean_expression_id _ hnf, ok_bind]
              rfl
  | forLoop v lo hi body =>
      simp only [fold_statement] at h
      simp only [TypedStatement.wt, Bool.and_eq_true] at hwt
      cases hlo : fold_uint_expression σ lo with
      | error f => rw [hlo, err_bind] at h; cases h
      | ok lo' =>
          cases hhi : fold_uint_expression σ hi with
          | error f => rw [hlo, ok_bind, hhi, err_bind] at h; cases h
          | ok hi' =>
              rw [hlo, ok_bind, hhi, ok_bind] at h
              cases h
              refine ⟨hσ, ?_, fun i hi _ => hi⟩
              simp only [fold_statements, fold_statement]
              rw [fold_uint_expression_id lo'
                  (fold_uint_expression_nf σ hσ lo hwt.1 lo' hlo), ok_bind,
                fold_uint_expression_id hi'
                  (fold_uint_expression_nf σ hσ hi hwt.2 hi' hhi), ok_bind]
              rfl
  | pushCallLog =>
      cases h
      exact ⟨hσ, rfl, fun i hi _ => hi⟩
  | popCallLog =>
      cases h
      exact ⟨hσ, rfl, fun i hi _ => hi⟩

/-- Sequencing statement folds over list concatenation. -/
theorem fold_statements_append (σ : Constants) (l1 l2 : List TypedStatement)
    (σm : Constants) (o1 : List TypedStatement) (σ2 : Constants)
    (o2 : List TypedStatement)
    (h1 : fold_statements σ l1 = .ok (σm, o1))
    (h2 : fold_statements σm l2 = .ok (σ2, o2)) :
    fold_statements σ (l1 ++ l2) = .ok (σ2, o1 ++ o2) := by
  induction l1 generalizing σ o1 with
  | nil =>
      cases h1
      simpa using h2
  | cons s rest ih =>
      rw [List.cons_append]
      simp only [fold_statements] at h1 ⊢
      cases hs : fold_statement σ s with
      | error f => rw [hs, err_bind] at h1; cases h1
      | ok r1 =>
          rw [hs, ok_bind] at h1
          rw [ok_bind]
          cases hr : fold_statements r1.1 rest with
          | error f => rw [hr, err_bind] at h1; cases h1
          | ok r2 =>
              obtain ⟨σr, or⟩ := r2
              rw [hr, ok_bind] at h1
              cases h1
              rw [ih r1.1 or hr, ok_bind]
              simp [List.append_assoc]

/-- Replaying the propagator on the output of a successful run over a
well-typed, single-assignment program is the identity. -/
theorem fold_statements_replay (p : List TypedStatement) (σ : Constants)
    (hσ : CanonicalConsts σ) (hwt : ∀ s ∈ p, s.wt = true)
    (hnodup : (defIds p).Nodup)
    (hfresh : ∀ id ∈ defIds p, lookupConst σ id = none)
    (res : Constants × List TypedStatement)
    (h : fold_statements σ p = .ok res) :
    fold_statements [] res.2 = .ok ([], res.2) := by
  induction p generalizing σ res with
  | nil => cases h; rfl
  | cons s rest ih =>
      simp only [fold_statements] at h
      cases h1 : fold_statement σ s with
      | error f => rw [h1, err_bind] at h; cases h
      | ok r1 =>
          rw [h1, ok_bind] at h
          cases h2 : fold_statements r1.1 rest with
          | error f => rw [h2, err_bind] at h; cases h
          | ok r2 =>
              rw [h2, ok_bind] at h
              cases h
              have hmem : ∀ id, defId s = some id → id ∈ defIds (s :: rest) := by
                intro id hid
                simp [defIds, List.filterMap_cons, hid]
              obtain ⟨hσ1, hreplay1, hpres⟩ :=
                fold_statement_replay σ hσ s (hwt s (List.mem_cons_self s rest))
                  (fun id hid => hfresh id (hmem id hid)) r1.1 r1.2
                  (by rw [← h1])
              have hnodup' : (defIds rest).Nodup := by
                cases hds : defId s with
                | none => simpa [defIds, List.filterMap_cons, hds] using hnodup
                | some i =>
                    have := hnodup
                    simp only [defIds, List.filterMap_cons, hds] at this
                    exact this.of_cons
              have hfresh' : ∀ id ∈ defIds rest, lookupConst r1.1 id = none := by
                intro id hid
                have hmem' : id ∈ defIds (s :: rest) := by
                  cases hds : defId s with
                  | none =>
                      rw [defIds, List.filterMap_cons, hds]
                      exact hid
                  | some i =>
                      rw [defIds, List.filterMap_cons, hds]
                      exact List.mem_cons_of_mem i hid
                refine hpres id (hfresh id hmem') ?_
                cases hds : defId s with
                | none => simp
                | some i =>
                    intro heq
                    have hii : i = id := Option.some.inj heq
                    subst hii
                    have := hnodup
                    simp only [defIds, List.filterMap_cons, hds,
                      List.nodup_cons] at this
                    exact this.1 hid
              have hreplay2 := ih r1.1 hσ1
                (fun t ht => hwt t (List.mem_cons_of_mem s ht)) hnodup' hfresh'
                r2 h2
              exact fold_statements_append [] r1.2 r2.2 [] r1.2 [] r2.2
                hreplay1 hreplay2

/-- A well-typed single-assignment program: a non-constant definition
whose right-hand side is already in normal form, on which `propagate`
is visibly the identity. -/
def c3SsaProgram : List TypedStatement :=
  [.definition (.identifier ⟨0, .uint .b8⟩)
    (.Uint (.Add .b8 none (.Identifier .b8 none 5) (.Value .b8 none 1)))]

/-- C3 (amended): for every well-typed program (operator nodes applied
to operands of their own bitwidth) whose top-level definitions assign
pairwise-distinct identifiers — the single-assignment discipline the
propagator assumes from the upstream SSA pass — a successful
`propagate` is idempotent: `propagate (propagate p) = propagate p`. -/
theorem C3_propagate_idempotent_ssa (p out : List TypedStatement)
    (hwt : ∀ s ∈ p, s.wt = true) (hnodup : (defIds p).Nodup)
    (h : propagate p = .ok out) : propagate out = .ok out := by
  simp only [propagate] at h ⊢
  cases hf : fold_statements [] p with
  | error f => rw [hf, map_err] at h; cases h
  | ok res =>
      rw [hf, map_ok] at h
      cases h
      rw [fold_statements_replay p [] CanonicalConsts_nil hwt hnodup
        (fun id _ => rfl) res hf, map_ok]

/-- C3 witness: the single-assignment program `x : u8 := y + 1` is
well-typed, `propagate` maps it to itself, and by the amended theorem a
second run is again the identity. -/
theorem C3_propagate_idempotent_ssa_witness :
    propagate c3SsaProgram = .ok c3SsaProgram :=
  C3_propagate_idempotent_ssa c3SsaProgram c3SsaProgram
    (by decide) (by decide) rfl


/-! ## The ir program and R1CS lowering (`zokrates_libsnark/src/lib.rs`) -/

/-- Modelled from the spec: `common::Parameter` is not under `src/`; it
pairs a variable with its privacy flag (`{ id, private }`), which is
all `r1cs_program` reads from it. -/
structure Parameter where
  id : Variable
  isPrivate : Bool
deriving DecidableEq, Repr

/-- Modelled from the spec: the `ir` module is not under `src/`.  A
sparse linear combination `LinComb(Vec<(Variable, T)>)` (spec §4.5);
the field coefficients are opaque to the lowering and kept as `Nat`. -/
abbrev LinComb := List (Variable × Nat)

/-- Modelled from the spec: `QuadComb { left, right }`, the quadratic
combination of two linear combinations. -/
structure QuadComb where
  left : LinComb
  right : LinComb
deriving DecidableEq, Repr

/-- Modelled from the spec (§3.6, §4.4): an `ir` directive
`{ inputs: Vec<QuadComb>, outputs: Vec<Variable>, solver }` with the
solver opaque (only equality is required of it). -/
structure IrDirective where
  inputs : List QuadComb
  outputs : List Variable
  solver : Nat
deriving DecidableEq, Repr

/-- Modelled from the spec (§4.5): an `ir::Statement` is either
`Constraint(quad, lin, error)` or `Directive(..)`. -/
inductive IrStatement where
  | constraint (quad : QuadComb) (lin : LinComb) (err : Nat)
  | directive (d : IrDirective)
deriving DecidableEq, Repr

/-- Modelled from the spec (§4.5): `ir::Prog` as consumed by
`r1cs_program` — arguments, the number of returns
(`prog.returns().len()`), and the statement list. -/
structure IrProg where
  arguments : List Parameter
  returnCount : Nat
  statements : List IrStatement
deriving DecidableEq, Repr

/-- `provide_variable_idx` (lib.rs lines 200-203):
`*variables.entry(*var).or_insert(variables.len())`.  Because every
insertion uses the map's current size as the index, the
`HashMap<Variable, usize>` is equivalently the insertion-ordered list
of its keys with the index of a variable being its position; the final
`variables.drain()` loop of `r1cs_program` (lines 276-280) writes each
key back at its index, recovering exactly this list. -/
def provide_variable_idx (vs : List Variable) (var : Variable) :
    List Variable :=
  if var ∈ vs then vs else vs ++ [var]

/-- The `(quad, lin)` pairs of the constraint statements, in order;
`Statement::Directive` is filtered out (lib.rs lines 235-238, 253-256). -/
def constraintsOf (p : IrProg) : List (QuadComb × LinComb) :=
  p.statements.filterMap (fun s =>
    match s with
    | .constraint q l _ => some (q, l)
    | .directive _ => none)

/-- One R1CS constraint: sparse `(A, B, C)` rows of `(column, coeff)`. -/
abbrev Constraint := List (Nat × Nat) × List (Nat × Nat) × List (Nat × Nat)

/-- `r1cs_program` (lib.rs lines 215-282): register the constant-one
wire, the non-private arguments in order, the `public(i)` output wires,
record `private_inputs_offset`, run the index-assignment pass over the
constraint statements (`quad.left`, `quad.right`, `lin` in that order),
and emit each constraint with variables replaced by their indices. -/
def r1cs_program (prog : IrProg) :
    List Variable × Nat × List Constraint :=
  let vars := provide_variable_idx [] Variable.one
  let vars :=
    (prog.arguments.filter (fun p => !p.isPrivate)).foldl
      (fun vs x => provide_variable_idx vs x.id) vars
  let vars :=
    (List.range prog.returnCount).foldl
      (fun vs i => provide_variable_idx vs (Variable.public i)) vars
  let private_inputs_offset := vars.length
  let vars :=
    (constraintsOf prog).foldl
      (fun vs ql =>
        let vs := ql.1.left.foldl (fun vs kv => provide_variable_idx vs kv.1) vs
        let vs := ql.1.right.foldl (fun vs kv => provide_variable_idx vs kv.1) vs
        ql.2.foldl (fun vs kv => provide_variable_idx vs kv.1) vs)
      vars
  let constraints :=
    (constraintsOf prog).map
      (fun ql =>
        (ql.1.left.map (fun kv => (vars.indexOf kv.1, kv.2)),
         ql.1.right.map (fun kv => (vars.indexOf kv.1, kv.2)),
         ql.2.map (fun kv => (vars.indexOf kv.1, kv.2))))
  (vars, private_inputs_offset, constraints)

/-- Spec-side description of the trailing columns (claim C1): the
variables of the constraint statements that are not yet columns, kept
in first-occurrence order. -/
def firstOccurrenceOrder (seen : List Variable) :
    List Variable → List Variable
  | [] => []
  | v :: rest =>
      if v ∈ seen then firstOccurrenceOrder seen rest
      else v :: firstOccurrenceOrder (seen ++ [v]) rest

/-- The stream of variables scanned by the index-assignment pass. -/
def constraintVars (p : IrProg) : List Variable :=
  (constraintsOf p).flatMap
    (fun ql => ql.1.left.map (·.1) ++ ql.1.right.map (·.1) ++ ql.2.map (·.1))

theorem foldl_provide_eq (stream seen : List Variable) :
    stream.foldl provide_variable_idx seen =
      seen ++ firstOccurrenceOrder seen stream := by
  induction stream generalizing seen with
  | nil => simp [firstOccurrenceOrder]
  | cons v rest ih =>
      simp only [List.foldl_cons, firstOccurrenceOrder, provide_variable_idx]
      by_cases hv : v ∈ seen
      · rw [if_pos hv, if_pos hv, ih]
      · rw [if_neg hv, if_neg hv, ih]
        simp [List.append_assoc]

theorem firstOccurrenceOrder_of_fresh (l : List Variable) :
    ∀ seen, l.Nodup → (∀ v ∈ l, v ∉ seen) → firstOccurrenceOrder seen l = l := by
  induction l with
  | nil => intro seen _ _; rfl
  | cons v rest ih =>
      intro seen hnodup hfresh
      rw [firstOccurrenceOrder, if_neg (hfresh v (List.mem_cons_self v rest))]
      rw [ih (seen ++ [v]) (List.nodup_cons.mp hnodup).2]
      intro u hu
      simp only [List.mem_append, List.mem_singleton]
      rintro (hus | rfl)
      · exact hfresh u (List.mem_cons_of_mem v hu) hus
      · exact (List.nodup_cons.mp hnodup).1 hu

theorem foldl_provide_fst (l : List (Variable × Nat)) (init : List Variable) :
    l.foldl (fun vs kv => provide_variable_idx vs kv.1) init =
      (l.map (·.1)).foldl provide_variable_idx init := by
  rw [List.foldl_map]

theorem constraint_pass_eq (cs : List (QuadComb × LinComb))
    (init : List Variable) :
    cs.foldl
      (fun vs ql =>
        let vs := ql.1.left.foldl (fun vs kv => provide_variable_idx vs kv.1) vs
        let vs := ql.1.right.foldl (fun vs kv => provide_variable_idx vs kv.1) vs
        ql.2.foldl (fun vs kv => provide_variable_idx vs kv.1) vs)
      init =
    (cs.flatMap (fun ql =>
        ql.1.left.map (·.1) ++ ql.1.right.map (·.1) ++ ql.2.map (·.1))).foldl
      provide_variable_idx init := by
  induction cs generalizing init with
  | nil => rfl
  | cons ql rest ih =>
      simp only [List.foldl_cons, List.flatMap_cons, List.foldl_append]
      rw [ih]
      simp only [foldl_provide_fst, List.foldl_append]

/-- Is the variable a `public(i)` output wire? -/
def Variable.isPublicWire : Variable → Bool
  | .public _ => true
  | _ => false

/-- Spec-side definition (claim C1): the column prefix the claim
prescribes — `one()`, then the non-private arguments in source order,
then `public(0), …, public(R-1)`. -/
def c1Prefix (prog : IrProg) : List Variable :=
  Variable.one ::
    ((prog.arguments.filter (fun p => !p.isPrivate)).map Parameter.id ++
      (List.range prog.returnCount).map Variable.public)

/-- A program with a single non-private argument that is the constant-one
wire itself. -/
def c1Prog : IrProg := ⟨[⟨Variable.one, false⟩], 0, []⟩

/-- C1: counterexample to the universally quantified claim.  On the
program whose only (non-private) argument is `Variable::one()`,
`provide_variable_idx` deduplicates it against the already-registered
constant-one wire, so `r1cs_program` reports `public_variables_count = 1`,
not `1 + K + R = 2` as the claim computes; the argument also gets
column 0, not column 1. -/
theorem C1_column_layout_counterexample :
    (r1cs_program c1Prog).2.1 ≠
      1 + ((c1Prog.arguments.filter (fun p => !p.isPrivate)).map
            Parameter.id).length + c1Prog.returnCount ∧
    (r1cs_program c1Prog).2.1 = 1 ∧
    (r1cs_program c1Prog).1 = [Variable.one] := by
  refine ⟨by decide, rfl, rfl⟩

theorem public_not_mem_of_no_wire (A : List Variable)
    (h : ∀ v ∈ A, v.isPublicWire = false) (i : Nat) :
    Variable.public i ∉ A := by
  intro hmem
  exact absurd (h _ hmem) (by simp [Variable.isPublicWire])

/-- C1 (amended): for every flat program whose non-private arguments are
pairwise distinct, none of which is the constant-one wire or a public
output wire, `r1cs_program` lays the columns out as `one()` at 0, the
non-private arguments in source order, then `public(0), …`, with
`public_variables_count = 1 + K + R`, and the remaining variables in
first-occurrence order over the constraint statements. -/
theorem C1_r1cs_column_layout (prog : IrProg)
    (hnodup : ((prog.arguments.filter (fun p => !p.isPrivate)).map
        Parameter.id).Nodup)
    (hone : Variable.one ∉ (prog.arguments.filter (fun p => !p.isPrivate)).map
        Parameter.id)
    (hpub : ∀ v ∈ (prog.arguments.filter (fun p => !p.isPrivate)).map
        Parameter.id, v.isPublicWire = false) :
    (r1cs_program prog).1 =
      c1Prefix prog ++
        firstOccurrenceOrder (c1Prefix prog) (constraintVars prog) ∧
    (r1cs_program prog).2.1 =
      1 + ((prog.arguments.filter (fun p => !p.isPrivate)).map
            Parameter.id).length + prog.returnCount := by
  have h1 : provide_variable_idx [] Variable.one = [Variable.one] := rfl
  have h2 :
      (prog.arguments.filter (fun p => !p.isPrivate)).foldl
          (fun vs x => provide_variable_idx vs x.id) [Variable.one] =
        Variable.one ::
          (prog.arguments.filter (fun p => !p.isPrivate)).map Parameter.id := by
    rw [← List.foldl_map Parameter.id provide_variable_idx, foldl_provide_eq,
      firstOccurrenceOrder_of_fresh _ _ hnodup, List.singleton_append]
    intro v hv
    simp only [List.mem_singleton]
    rintro rfl
    exact hone hv
  have h3 :
      (List.range prog.returnCount).foldl
          (fun vs i => provide_variable_idx vs (Variable.public i))
          (Variable.one ::
            (prog.arguments.filter (fun p => !p.isPrivate)).map Parameter.id) =
        c1Prefix prog := by
    rw [← List.foldl_map Variable.public provide_variable_idx, foldl_provide_eq,
      firstOccurrenceOrder_of_fresh]
    · rw [c1Prefix]; rfl
    · exact (List.nodup_range prog.returnCount).map (fun a b h => Variable.public.inj h)
    · intro v hv
      obtain ⟨i, _, rfl⟩ := List.mem_map.mp hv
      simp only [List.mem_cons, List.mem_singleton]
      rintro (h | h)
      · cases h
      · exact public_not_mem_of_no_wire _ hpub i h
  have hvars : (r1cs_program prog).1 =
      (constraintsOf prog).foldl
        (fun vs ql =>
          let vs := ql.1.left.foldl (fun vs kv => provide_variable_idx vs kv.1) vs
          let vs := ql.1.right.foldl (fun vs kv => provide_variable_idx vs kv.1) vs
          ql.2.foldl (fun vs kv => provide_variable_idx vs kv.1) vs)
        ((List.range prog.returnCount).foldl
          (fun vs i => provide_variable_idx vs (Variable.public i))
          ((prog.arguments.filter (fun p => !p.isPrivate)).foldl
            (fun vs x => provide_variable_idx vs x.id)
            (provide_variable_idx [] Variable.one))) := rfl
  have hoff : (r1cs_program prog).2.1 =
      ((List.range prog.returnCount).foldl
        (fun vs i => provide_variable_idx vs (Variable.public i))
        ((prog.arguments.filter (fun p => !p.isPrivate)).foldl
          (fun vs x => provide_variable_idx vs x.id)
          (provide_variable_idx [] Variable.one))).length := rfl
  constructor
  · rw [hvars, h1, h2, h3, constraint_pass_eq, ← constraintVars,
      foldl_provide_eq]
  · rw [hoff, h1, h2, h3, c1Prefix]
    simp only [c1Prefix, List.length_cons, List.length_append,
      List.length_map, List.length_range]
    omega

/-- A small program exercising the amended layout: two arguments (one
private), one return, one directive (skipped by the index pass) and one
constraint introducing a fresh wire. -/
def c1WitnessProg : IrProg :=
  { arguments := [⟨Variable.var 10, false⟩, ⟨Variable.var 11, true⟩],
    returnCount := 1,
    statements :=
      [.directive ⟨[⟨[(Variable.var 10, 1)], [(Variable.one, 1)]⟩],
          [Variable.var 12], 0⟩,
       .constraint ⟨[(Variable.var 12, 1)], [(Variable.var 10, 1)]⟩
          [(Variable.public 0, 1)] 0] }

theorem C1_r1cs_column_layout_witness :
    (r1cs_program c1WitnessProg).1 =
      c1Prefix c1WitnessProg ++
        firstOccurrenceOrder (c1Prefix c1WitnessProg)
          (constraintVars c1WitnessProg) ∧
    (r1cs_program c1WitnessProg).2.1 =
      1 + ((c1WitnessProg.arguments.filter (fun p => !p.isPrivate)).map
            Parameter.id).length + c1WitnessProg.returnCount :=
  C1_r1cs_column_layout c1WitnessProg (by decide) (by decide) (by decide)


/-! ## Sparse-matrix serialisation (`zokrates_libsnark/src/lib.rs`,
`prepare_setup` and `vec_as_u8_32_array`) -/

/-- Modelled from the spec: `zokrates_field` is not under `src/`;
`Field::to_byte_vector` returns the element's little-endian byte
vector.  `leBytesAux fuel n` computes the base-256 little-endian
digits of `n` by structural recursion on the fuel; `fuel = n` always
suffices because `n / 256 < n` for `n > 0`. -/
def leBytesAux : Nat → Nat → List Nat
  | _, 0 => []
  | 0, _ => []
  | fuel + 1, n + 1 => (n + 1) % 256 :: leBytesAux fuel ((n + 1) / 256)

/-- The little-endian byte vector of a field element held as a `Nat`. -/
def to_byte_vector (n : Nat) : List Nat := leBytesAux n n

theorem leBytesAux_getD (i : Nat) :
    ∀ fuel n, n ≤ fuel → (leBytesAux fuel n).getD i 0 = n / 256 ^ i % 256 := by
  induction i with
  | zero =>
      intro fuel n hn
      match fuel, n with
      | _, 0 => simp [leBytesAux]
      | 0, n + 1 => omega
      | fuel + 1, n + 1 => simp [leBytesAux]
  | succ i ih =>
      intro fuel n hn
      match fuel, n with
      | _, 0 => simp [leBytesAux]
      | 0, n + 1 => omega
      | fuel + 1, n + 1 =>
          rw [leBytesAux]
          show (leBytesAux fuel ((n + 1) / 256)).getD i 0 = _
          rw [ih fuel ((n + 1) / 256) (by omega)]
          have hdiv : (n + 1) / 256 / 256 ^ i = (n + 1) / 256 ^ (i + 1) := by
            rw [Nat.div_div_eq_div_mul, pow_succ']
          rw [hdiv]

theorem leBytesAux_lt_pow_length :
    ∀ fuel n, n ≤ fuel → n < 256 ^ (leBytesAux fuel n).length := by
  intro fuel
  induction fuel with
  | zero => intro n hn; interval_cases n; simp [leBytesAux]
  | succ fuel ih =>
      intro n hn
      match n with
      | 0 => simp [leBytesAux]
      | n + 1 =>
          rw [leBytesAux]
          have h := ih ((n + 1) / 256) (by omega)
          simp only [List.length_cons, Nat.pow_succ]
          calc n + 1 < 256 * ((n + 1) / 256) + 256 := by omega
            _ = 256 * ((n + 1) / 256 + 1) := by ring
            _ ≤ 256 * 256 ^ (leBytesAux fuel ((n + 1) / 256)).length := by
                have : (n + 1) / 256 + 1 ≤ 256 ^ (leBytesAux fuel ((n + 1) / 256)).length := h
                exact Nat.mul_le_mul_left 256 this
            _ = _ := by ring

/-- `vec_as_u8_32_array` (lib.rs lines 14-21): assert the input fits in
32 bytes (`assert!(vec.len() <= 32)`, a panic otherwise), start from a
zeroed 32-byte array and write byte `index` of the vector at position
`31 - index`, i.e. reverse the little-endian input into a right-aligned
big-endian array. -/
def vec_as_u8_32_array (vec : List Nat) : Except Failure (List Nat) :=
  if vec.length ≤ 32 then
    .ok (vec.enum.foldl (fun a p => a.set (31 - p.1) p.2) (List.replicate 32 0))
  else .error .panic

theorem foldl_set_length :
    ∀ (l : List (Nat × Nat)) (arr : List Nat),
      (l.foldl (fun a p => a.set (31 - p.1) p.2) arr).length = arr.length := by
  intro l
  induction l with
  | nil => intro arr; rfl
  | cons p rest ih =>
      intro arr
      rw [List.foldl_cons, ih, List.length_set]

theorem foldl_set_getD (vec : List Nat) :
    ∀ (k : Nat) (arr : List Nat), arr.length = 32 → k + vec.length ≤ 32 →
      ∀ j, j < 32 →
        ((List.enumFrom k vec).foldl (fun a p => a.set (31 - p.1) p.2)
            arr).getD j 0 =
          if k ≤ 31 - j ∧ 31 - j < k + vec.length then vec.getD (31 - j - k) 0
          else arr.getD j 0 := by
  induction vec with
  | nil =>
      intro k arr harr hk j hj
      rw [if_neg (by simp only [List.length_nil]; omega)]
      rfl
  | cons v rest ih =>
      intro k arr harr hk j hj
      have hstep : (List.enumFrom k (v :: rest)).foldl
          (fun a p => a.set (31 - p.1) p.2) arr =
          (List.enumFrom (k + 1) rest).foldl
            (fun a p => a.set (31 - p.1) p.2) (arr.set (31 - k) v) := rfl
      simp only [List.length_cons] at hk
      rw [hstep,
        ih (k + 1) (arr.set (31 - k) v) (by rw [List.length_set]; exact harr)
          (by omega) j hj]
      simp only [List.length_cons]
      by_cases h1 : k + 1 ≤ 31 - j ∧ 31 - j < k + 1 + rest.length
      · rw [if_pos h1, if_pos (by omega)]
        have hidx : 31 - j - k = (31 - j - (k + 1)) + 1 := by omega
        rw [hidx]
        rfl
      · rw [if_neg h1]
        by_cases h3 : k ≤ 31 - j ∧ 31 - j < k + (rest.length + 1)
        · rw [if_pos h3]
          have hjk : 31 - j = k := by omega
          have hj' : j = 31 - k := by omega
          have hzero : 31 - j - k = 0 := by omega
          rw [hzero, hj']
          show (arr.set (31 - k) v).getD (31 - k) 0 = v
          have hlt : 31 - k < arr.length := by omega
          simp [List.getD, List.getElem?_set, hlt]
        · rw [if_neg h3]
          have hne : 31 - k ≠ j := by omega
          simp [List.getD, List.getElem?_set, hne]

theorem vec_as_u8_32_array_ok (vec : List Nat) (h : vec.length ≤ 32) :
    ∃ arr, vec_as_u8_32_array vec = .ok arr ∧ arr.length = 32 ∧
      ∀ j, j < 32 →
        arr.getD j 0 = if 31 - j < vec.length then vec.getD (31 - j) 0 else 0 := by
  refine ⟨_, by rw [vec_as_u8_32_array, if_pos h], ?_, ?_⟩
  · rw [foldl_set_length, List.length_replicate]
  · intro j hj
    have henum : vec.enum = List.enumFrom 0 vec := rfl
    have hrep := foldl_set_getD vec 0 (List.replicate 32 0)
      (List.length_replicate 32 0) (by omega) j hj
    rw [henum, hrep]
    by_cases hc : 31 - j < vec.length
    · rw [if_pos (by omega), if_pos hc]
      simp
    · rw [if_neg (by omega), if_neg hc]
      simp only [List.getD, List.get?_eq_getElem?, List.getElem?_replicate]
      split <;> rfl

/-- The little-endian 4-byte encoding of a row or column index
(`row.to_le().to_ne_bytes()` on an `i32`). -/
def le4 (n : Nat) : List Nat :=
  [n % 256, n / 256 % 256, n / 256 ^ 2 % 256, n / 256 ^ 3 % 256]

/-- One 40-byte record `{ row @ 0 (LE), column @ 4 (LE), value @ 8
(right-aligned big-endian) }` for one sparse coefficient
(lib.rs lines 101-115, per matrix). -/
def record_bytes (e : Nat × Nat × Nat) : Except Failure (List Nat) :=
  (vec_as_u8_32_array (to_byte_vector e.2.2)).map
    (fun val32 => le4 e.1 ++ le4 e.2.1 ++ val32)

/-- The `(row, column, value)` triples of one matrix, one per sparse
coefficient, rows in constraint order (lib.rs lines 61-83). -/
def matrix_entries (constraints : List Constraint)
    (pick : Constraint → List (Nat × Nat)) : List (Nat × Nat × Nat) :=
  constraints.enum.flatMap
    (fun rc => (pick rc.2).map (fun iv => (rc.1, iv.1, iv.2)))

/-- Pack one matrix's records back to back, `STRUCT_SIZE = 40` bytes
each (lib.rs lines 87-115). -/
def pack_matrix : List (Nat × Nat × Nat) → Except Failure (List Nat)
  | [] => .ok []
  | e :: rest => do
      let r ← record_bytes e
      let rs ← pack_matrix rest
      pure (r ++ rs)

/-- `prepare_setup` (lib.rs lines 36-155): lower to R1CS, then emit the
packed byte arrays of the three matrices together with the counts
`(num_constraints, num_variables, num_inputs)`. -/
def prepare_setup (prog : IrProg) :
    Except Failure (List Nat × List Nat × List Nat × Nat × Nat × Nat) := do
  let r := r1cs_program prog
  let a_arr ← pack_matrix (matrix_entries r.2.2 (fun c => c.1))
  let b_arr ← pack_matrix (matrix_entries r.2.2 (fun c => c.2.1))
  let c_arr ← pack_matrix (matrix_entries r.2.2 (fun c => c.2.2))
  pure (a_arr, b_arr, c_arr, r.2.2.length, r.1.length, r.2.1 - 1)

theorem le4_getD (n x : Nat) (hx : x < 4) :
    (le4 n).getD x 0 = n / 256 ^ x % 256 := by
  interval_cases x <;> simp [le4]

theorem record_bytes_ok (e : Nat × Nat × Nat) (r : List Nat)
    (h : record_bytes e = .ok r) :
    r.length = 40 ∧
    (∀ x, x < 4 → r.getD x 0 = e.1 / 256 ^ x % 256) ∧
    (∀ x, x < 4 → r.getD (4 + x) 0 = e.2.1 / 256 ^ x % 256) ∧
    (∀ x, x < 32 → r.getD (8 + x) 0 = e.2.2 / 256 ^ (31 - x) % 256) := by
  cases hv : vec_as_u8_32_array (to_byte_vector e.2.2) with
  | error f => rw [record_bytes, hv, map_err] at h; cases h
  | ok arr =>
      rw [record_bytes, hv, map_ok] at h
      cases h
      by_cases hlen : (to_byte_vector e.2.2).length ≤ 32
      case neg => rw [vec_as_u8_32_array, if_neg hlen] at hv; cases hv
      obtain ⟨arr', harr', hlen32, hbytes⟩ := vec_as_u8_32_array_ok _ hlen
      rw [hv] at harr'
      cases harr'
      have hlen4 : (le4 e.1).length = 4 := rfl
      have hlen4' : (le4 e.2.1).length = 4 := rfl
      refine ⟨?_, ?_, ?_, ?_⟩
      · simp [List.length_append, hlen4, hlen4', hlen32]
      · intro x hx
        rw [List.getD_append _ _ 0 x
          (by rw [List.length_append, hlen4, hlen4']; omega)]
        rw [List.getD_append _ _ 0 x (by rw [hlen4]; omega)]
        exact le4_getD _ x hx
      · intro x hx
        rw [List.getD_append _ _ 0 (4 + x)
          (by rw [List.length_append, hlen4, hlen4']; omega)]
        rw [List.getD_append_right _ _ 0 (4 + x) (by rw [hlen4]; omega)]
        rw [hlen4, Nat.add_sub_cancel_left]
        exact le4_getD _ x hx
      · intro x hx
        rw [List.getD_append_right _ _ 0 (8 + x)
          (by rw [List.length_append, hlen4, hlen4']; omega)]
        rw [List.length_append, hlen4, hlen4']
        have hidx : 8 + x - (4 + 4) = x := by omega
        rw [hidx, hbytes x (by omega)]
        by_cases hc : 31 - x < (to_byte_vector e.2.2).length
        · rw [if_pos hc]
          exact leBytesAux_getD (31 - x) _ _ (Nat.le_refl _)
        · rw [if_neg hc]
          have hsmall : e.2.2 < 256 ^ (31 - x) :=
            Nat.lt_of_lt_of_le (leBytesAux_lt_pow_length _ _ (Nat.le_refl _))
              (Nat.pow_le_pow_right (by omega)
                (by rw [to_byte_vector] at hc; omega))
          rw [Nat.div_eq_of_lt hsmall]

/-- C2: for every coefficient of a serialised matrix, `pack_matrix`
emits exactly one 40-byte record; inside record `k`, bytes `0..4` hold
the constraint row little-endian, bytes `4..8` the column index
little-endian, and bytes `8..40` the value's canonical big-endian
32-byte encoding (the value right-aligned, byte `8 + x` being byte
`31 - x` of the little-endian representation). -/
theorem C2_record_layout (entries : List (Nat × Nat × Nat)) (out : List Nat)
    (h : pack_matrix entries = .ok out) :
    out.length = 40 * entries.length ∧
    ∀ k, (hk : k < entries.length) →
      (∀ x, x < 4 →
        out.getD (40 * k + x) 0 = (entries.get ⟨k, hk⟩).1 / 256 ^ x % 256) ∧
      (∀ x, x < 4 →
        out.getD (40 * k + 4 + x) 0 =
          (entries.get ⟨k, hk⟩).2.1 / 256 ^ x % 256) ∧
      (∀ x, x < 32 →
        out.getD (40 * k + 8 + x) 0 =
          (entries.get ⟨k, hk⟩).2.2 / 256 ^ (31 - x) % 256) := by
  induction entries generalizing out with
  | nil =>
      cases h
      exact ⟨rfl, fun k hk => absurd hk (by simp)⟩
  | cons e rest ih =>
      cases hr : record_bytes e with
      | error f => rw [pack_matrix, hr, err_bind] at h; cases h
      | ok r =>
          rw [pack_matrix, hr, ok_bind] at h
          cases hrs : pack_matrix rest with
          | error f => rw [hrs, err_bind] at h; cases h
          | ok rs =>
              rw [hrs, ok_bind] at h
              cases h
              obtain ⟨hlen, hrow, hcol, hval⟩ := record_bytes_ok e r hr
              obtain ⟨hlen', hrec'⟩ := ih rs hrs
              constructor
              · simp [List.length_append, hlen, hlen', List.length_cons]
                ring
              · intro k hk
                match k with
                | 0 =>
                    refine ⟨?_, ?_, ?_⟩
                    · intro x hx
                      rw [Nat.mul_zero, Nat.zero_add,
                        List.getD_append _ _ 0 x (by omega)]
                      exact hrow x hx
                    · intro x hx
                      rw [Nat.mul_zero, Nat.zero_add,
                        List.getD_append _ _ 0 (4 + x) (by omega)]
                      exact hcol x hx
                    · intro x hx
                      rw [Nat.mul_zero, Nat.zero_add,
                        List.getD_append _ _ 0 (8 + x) (by omega)]
                      exact hval x hx
                | k + 1 =>
                    have hk' : k < rest.length := by
                      simp only [List.length_cons] at hk; omega
                    obtain ⟨hrow', hcol', hval'⟩ := hrec' k hk'
                    have hidx : ∀ y, 40 * (k + 1) + y - r.length = 40 * k + y := by
                      intro y; omega
                    refine ⟨?_, ?_, ?_⟩
                    · intro x hx
                      rw [List.getD_append_right _ _ 0 (40 * (k + 1) + x)
                          (by omega),
                        hidx x]
                      exact hrow' x hx
                    · intro x hx
                      have h4 : 40 * (k + 1) + 4 + x = 40 * (k + 1) + (4 + x) := by
                        omega
                      rw [h4, List.getD_append_right _ _ 0 (40 * (k + 1) + (4 + x))
                          (by omega),
                        hidx (4 + x)]
                      have h4' : 40 * k + (4 + x) = 40 * k + 4 + x := by omega
                      rw [h4']
                      exact hcol' x hx
                    · intro x hx
                      have h8 : 40 * (k + 1) + 8 + x = 40 * (k + 1) + (8 + x) := by
                        omega
                      rw [h8, List.getD_append_right _ _ 0 (40 * (k + 1) + (8 + x))
                          (by omega),
                        hidx (8 + x)]
                      have h8' : 40 * k + (8 + x) = 40 * k + 8 + x := by omega
                      rw [h8']
                      exact hval' x hx

/-- One sparse coefficient: row 1, column 3, value 258 = 0x0102. -/
def c2Entries : List (Nat × Nat × Nat) := [(1, 3, 258)]

/-- Its 40-byte record: row `1` little-endian at bytes 0..4, column `3`
little-endian at bytes 4..8, value `0x0102` right-aligned big-endian at
bytes 8..40. -/
def c2Out : List Nat :=
  [1, 0, 0, 0, 3, 0, 0, 0,
   0, 0, 0, 0, 0, 0, 0, 0, 0, 0, 0, 0, 0, 0, 0, 0,
   0, 0, 0, 0, 0, 0, 0, 0, 0, 0, 0, 0, 0, 0, 1, 2]

theorem C2_record_layout_witness :
    pack_matrix c2Entries = .ok c2Out ∧
    c2Out.length = 40 * c2Entries.length ∧
    c2Out.getD 0 0 = 1 / 256 ^ 0 % 256 ∧
    c2Out.getD 4 0 = 3 / 256 ^ 0 % 256 ∧
    c2Out.getD (8 + 30) 0 = 258 / 256 ^ (31 - 30) % 256 ∧
    c2Out.getD (8 + 31) 0 = 258 / 256 ^ (31 - 31) % 256 := by
  have h := C2_record_layout c2Entries c2Out rfl
  have hk : 0 < c2Entries.length := by decide
  refine ⟨rfl, h.1, ?_, ?_, ?_, ?_⟩
  · exact (h.2 0 hk).1 0 (by decide)
  · exact (h.2 0 hk).2.1 0 (by decide)
  · exact (h.2 0 hk).2.2 30 (by decide)
  · exact (h.2 0 hk).2.2 31 (by decide)


/-! ## Directive deduplication (`zokrates_core/src/optimizer/directive.rs`) -/

/-- The renaming table `substitution : HashMap<Variable, Variable>`,
as an association list whose front-most entry for a key wins (matching
the map's last-insert-wins semantics, see `subst_extend`). -/
abbrev Substitution := List (Variable × Variable)

/-- `fold_variable` (directive.rs lines 27-29):
`*self.substitution.get(&v).unwrap_or(&v)`. -/
def fold_variable (s : Substitution) (v : Variable) : Variable :=
  ((s.find? (fun p => p.1 == v)).map (·.2)).getD v

/-- Modelled from the spec (§4.4): the default infallible folder
rewrites every variable reference of a linear combination through the
substitution. -/
def fold_lin (s : Substitution) (l : LinComb) : LinComb :=
  l.map (fun p => (fold_variable s p.1, p.2))

/-- Fold both sides of a quadratic combination. -/
def fold_quad (s : Substitution) (q : QuadComb) : QuadComb :=
  ⟨fold_lin s q.left, fold_lin s q.right⟩

/-- Modelled from the spec (§4.4): `fold_directive` rewrites the input
combinations and the output variables through the substitution; the
solver is untouched. -/
def fold_dir (s : Substitution) (d : IrDirective) : IrDirective :=
  ⟨d.inputs.map (fold_quad s), d.outputs.map (fold_variable s), d.solver⟩

/-- The dedup key of a directive: `(d.solver, d.inputs)`
(directive.rs line 36). -/
def dir_key (d : IrDirective) : Nat × List QuadComb := (d.solver, d.inputs)

/-- The optimiser state: `calls : HashMap<(Solver, Vec<QuadComb>),
Vec<Variable>>` as an association list (keys are inserted at most once,
so front-lookup is exact), plus the substitution. -/
structure DirOptState where
  calls : List ((Nat × List QuadComb) × List Variable)
  substitution : Substitution
deriving DecidableEq, Repr

/-- Lookup in the `calls` table. -/
def calls_lookup (calls : List ((Nat × List QuadComb) × List Variable))
    (k : Nat × List QuadComb) : Option (List Variable) :=
  (calls.find? (fun p => p.1 == k)).map (·.2)

/-- `HashMap::extend` over an association list: pairs are inserted left
to right, each insertion shadowing older entries for the same key, so
the front-most (latest) entry wins on lookup. -/
def subst_extend (s : Substitution) (pairs : List (Variable × Variable)) :
    Substitution :=
  pairs.foldl (fun acc p => p :: acc) s

/-- `DirectiveOptimizer::fold_statement` (directive.rs lines 31-50): a
directive is first folded through the substitution; a vacant dedup key
registers the outputs and emits the folded directive; an occupied key
maps each fresh output to the matching prior output and emits nothing.
Non-directive statements are rewritten through the substitution and
passed through (the default folder). -/
def DirOptState.fold_statement (st : DirOptState) :
    IrStatement → DirOptState × List IrStatement
  | .constraint q l err =>
      (st, [.constraint (fold_quad st.substitution q)
              (fold_lin st.substitution l) err])
  | .directive d =>
      let d := fold_dir st.substitution d
      match calls_lookup st.calls (dir_key d) with
      | none =>
          ({ st with calls := (dir_key d, d.outputs) :: st.calls },
           [.directive d])
      | some prior =>
          ({ st with
              substitution := subst_extend st.substitution
                (d.outputs.zip prior) },
           [])

/-- Fold a statement list, threading the state and concatenating the
emitted statements. -/
def DirOptState.fold_statements (st : DirOptState) :
    List IrStatement → DirOptState × List IrStatement
  | [] => (st, [])
  | s :: rest =>
      let r := st.fold_statement s
      let r' := r.1.fold_statements rest
      (r'.1, r.2 ++ r'.2)

/-- Run the optimiser from the empty state
(`DirectiveOptimizer::default()`). -/
def dir_optimize (p : IrProg) : IrProg :=
  { p with statements :=
      ((DirOptState.mk [] []).fold_statements p.statements).2 }

/-- The dedup keys of the directives of a statement list, in order. -/
def dirKeys (out : List IrStatement) : List (Nat × List QuadComb) :=
  out.filterMap (fun s =>
    match s with
    | .directive d => some (dir_key d)
    | _ => none)

theorem calls_lookup_cons_self (calls : List ((Nat × List QuadComb) × List Variable))
    (k : Nat × List QuadComb) (o : List Variable) :
    calls_lookup ((k, o) :: calls) k = some o := by
  simp [calls_lookup, List.find?_cons]

theorem calls_lookup_cons_none (calls : List ((Nat × List QuadComb) × List Variable))
    (e : (Nat × List QuadComb) × List Variable) (k : Nat × List QuadComb)
    (h : calls_lookup (e :: calls) k = none) :
    calls_lookup calls k = none := by
  simp only [calls_lookup, List.find?_cons] at h ⊢
  by_cases he : e.1 == k
  · rw [he] at h; cases h
  · rw [Bool.eq_false_iff.mpr he] at h
    exact h

theorem calls_lookup_cons_mono (calls : List ((Nat × List QuadComb) × List Variable))
    (e : (Nat × List QuadComb) × List Variable) (k : Nat × List QuadComb)
    (h : calls_lookup calls k ≠ none) :
    calls_lookup (e :: calls) k ≠ none := by
  simp only [calls_lookup, List.find?_cons]
  by_cases he : e.1 == k
  · rw [he]; simp
  · rw [Bool.eq_false_iff.mpr he]
    exact h

theorem dirKeys_append (a b : List IrStatement) :
    dirKeys (a ++ b) = dirKeys a ++ dirKeys b := by
  simp [dirKeys, List.filterMap_append]

theorem dirKeys_cons_dir (d : IrDirective) (out : List IrStatement) :
    dirKeys (.directive d :: out) = dir_key d :: dirKeys out := rfl

theorem dirKeys_cons_con (q : QuadComb) (l : LinComb) (err : Nat)
    (out : List IrStatement) :
    dirKeys (.constraint q l err :: out) = dirKeys out := rfl

theorem fold_statements_dedup (ss : List IrStatement) :
    ∀ (st st' : DirOptState) (out : List IrStatement),
      st.fold_statements ss = (st', out) →
      (dirKeys out).Nodup ∧
      (∀ k ∈ dirKeys out,
        calls_lookup st.calls k = none ∧ calls_lookup st'.calls k ≠ none) ∧
      (∀ k, calls_lookup st.calls k ≠ none → calls_lookup st'.calls k ≠ none) := by
  induction ss with
  | nil =>
      intro st st' out h
      cases h
      exact ⟨List.nodup_nil, fun k hk => absurd hk (by simp [dirKeys]), fun k hk => hk⟩
  | cons s rest ih =>
      intro st st' out h
      cases s with
      | constraint q l err =>
          simp only [DirOptState.fold_statements, DirOptState.fold_statement] at h
          cases hr : (DirOptState.fold_statements st rest) with
          | mk st1 out1 =>
              rw [hr] at h
              cases h
              obtain ⟨hnd, hmem, hmono⟩ := ih _ _ _ hr
              rw [List.singleton_append, dirKeys_cons_con]
              exact ⟨hnd, hmem, hmono⟩
      | directive d =>
          simp only [DirOptState.fold_statements, DirOptState.fold_statement] at h
          cases hl : calls_lookup st.calls (dir_key (fold_dir st.substitution d)) with
          | none =>
              rw [hl] at h
              cases hr : (DirOptState.mk
                    ((dir_key (fold_dir st.substitution d),
                       (fold_dir st.substitution d).outputs) :: st.calls)
                    st.substitution).fold_statements rest with
              | mk st1 out1 =>
                  rw [hr] at h
                  cases h
                  obtain ⟨hnd, hmem, hmono⟩ := ih _ _ _ hr
                  have hnotin : dir_key (fold_dir st.substitution d) ∉ dirKeys out1 := by
                    intro hmem'
                    have := (hmem _ hmem').1
                    rw [calls_lookup_cons_self] at this
                    cases this
                  rw [List.singleton_append, dirKeys_cons_dir]
                  refine ⟨List.nodup_cons.mpr ⟨hnotin, hnd⟩, ?_, ?_⟩
                  · intro k hk
                    cases List.mem_cons.mp hk with
                    | inl hk1 =>
                        subst hk1
                        refine ⟨hl, hmono _ ?_⟩
                        rw [calls_lookup_cons_self]
                        simp
                    | inr hk2 =>
                        obtain ⟨h1, h2⟩ := hmem k hk2
                        exact ⟨calls_lookup_cons_none _ _ _ h1, h2⟩
                  · intro k hk
                    exact hmono k (calls_lookup_cons_mono _ _ _ hk)
          | some prior =>
              rw [hl] at h
              cases hr : (DirOptState.mk st.calls
                    (subst_extend st.substitution
                      ((fold_dir st.substitution d).outputs.zip prior))).fold_statements
                    rest with
              | mk st1 out1 =>
                  rw [hr] at h
                  cases h
                  obtain ⟨hnd, hmem, hmono⟩ := ih _ _ _ hr
                  rw [List.nil_append]
                  exact ⟨hnd, hmem, hmono⟩

theorem fold_variable_cons_self (s : Substitution) (v w : Variable) :
    fold_variable ((v, w) :: s) v = w := by
  simp [fold_variable, List.find?_cons]

theorem fold_variable_cons_ne (s : Substitution) (p : Variable × Variable)
    (v : Variable) (h : p.1 ≠ v) :
    fold_variable (p :: s) v = fold_variable s v := by
  simp only [fold_variable, List.find?_cons]
  rw [show (p.1 == v) = false from beq_eq_false_iff_ne.mpr h]

theorem fold_variable_extend_not_mem (pairs : List (Variable × Variable)) :
    ∀ (s : Substitution) (v : Variable), v ∉ pairs.map Prod.fst →
      fold_variable (subst_extend s pairs) v = fold_variable s v := by
  induction pairs with
  | nil => intro s v _; rfl
  | cons p rest ih =>
      intro s v hv
      simp only [List.map_cons, List.mem_cons] at hv
      push_neg at hv
      rw [show subst_extend s (p :: rest) = subst_extend (p :: s) rest from rfl,
        ih (p :: s) v hv.2, fold_variable_cons_ne s p v (fun h => hv.1 h.symm)]

theorem fold_variable_extend (pairs : List (Variable × Variable)) :
    ∀ (s : Substitution) (v w : Variable), (v, w) ∈ pairs →
      (pairs.map Prod.fst).Nodup →
      fold_variable (subst_extend s pairs) v = w := by
  induction pairs with
  | nil => intro s v w hm _; cases hm
  | cons p rest ih =>
      intro s v w hm hnd
      simp only [List.map_cons, List.nodup_cons] at hnd
      rw [show subst_extend s (p :: rest) = subst_extend (p :: s) rest from rfl]
      cases List.mem_cons.mp hm with
      | inl hp =>
          cases hp
          rw [fold_variable_extend_not_mem rest ((v, w) :: s) v hnd.1]
          exact fold_variable_cons_self s v w
      | inr hr => exact ih (p :: s) v w hr hnd.2

theorem map_fst_zip_sublist :
    ∀ (l1 : List Variable) (l2 : List Variable),
      ((l1.zip l2).map Prod.fst).Sublist l1 := by
  intro l1
  induction l1 with
  | nil => intro l2; simp
  | cons a l1 ih =>
      intro l2
      cases l2 with
      | nil => simp
      | cons b l2 =>
          rw [List.zip_cons_cons, List.map_cons]
          exact List.Sublist.cons₂ a (ih l2)

/-- C5: after the directive optimiser runs, no two directives of the
output share a `(solver, inputs)` dedup key; a directive whose key is
occupied emits nothing and extends the substitution with the pairing of
its (folded) outputs against the prior outputs; after such a step each
fresh output variable is rewritten to the matching prior output
(provided the outputs are pairwise distinct); and non-directive
statements are rewritten through the substitution and passed through,
so subsequent references to a substituted variable are replaced. -/
theorem C5_directive_dedup :
    (∀ p : IrProg, (dirKeys (dir_optimize p).statements).Nodup) ∧
    (∀ (st : DirOptState) (d : IrDirective) (prior : List Variable),
      calls_lookup st.calls (dir_key (fold_dir st.substitution d)) = some prior →
      st.fold_statement (.directive d) =
        (DirOptState.mk st.calls
          (subst_extend st.substitution
            ((fold_dir st.substitution d).outputs.zip prior)), [])) ∧
    (∀ (st : DirOptState) (d : IrDirective) (prior : List Variable),
      calls_lookup st.calls (dir_key (fold_dir st.substitution d)) = some prior →
      (fold_dir st.substitution d).outputs.Nodup →
      ∀ vw ∈ (fold_dir st.substitution d).outputs.zip prior,
        fold_variable (st.fold_statement (.directive d)).1.substitution vw.1 =
          vw.2) ∧
    (∀ (st : DirOptState) (q : QuadComb) (l : LinComb) (err : Nat),
      st.fold_statement (.constraint q l err) =
        (st, [.constraint (fold_quad st.substitution q)
                (fold_lin st.substitution l) err])) := by
  refine ⟨?_, ?_, ?_, ?_⟩
  · intro p
    cases hfs : (DirOptState.mk [] []).fold_statements p.statements with
    | mk st' out =>
        have h := (fold_statements_dedup p.statements _ _ _ hfs).1
        simpa [dir_optimize, hfs] using h
  · intro st d prior h
    simp only [DirOptState.fold_statement]
    rw [h]
  · intro st d prior h hnd vw hvw
    simp only [DirOptState.fold_statement]
    rw [h]
    exact fold_variable_extend _ _ vw.1 vw.2 hvw
      (((map_fst_zip_sublist _ _)).nodup hnd)
  · intro st q l err
    rfl

/-- A one-entry `calls` table: key `(solver 0, inputs [⟨[], []⟩])` with
prior outputs `[var 1]`. -/
def c5State : DirOptState :=
  ⟨[((0, [⟨[], []⟩]), [Variable.var 1])], []⟩

/-- A directive hitting that key with fresh output `var 2`. -/
def c5Dir : IrDirective := ⟨[⟨[], []⟩], [Variable.var 2], 0⟩

theorem C5_directive_dedup_witness :
    c5State.fold_statement (.directive c5Dir) =
      (DirOptState.mk c5State.calls
        (subst_extend c5State.substitution
          ((fold_dir c5State.substitution c5Dir).outputs.zip
            [Variable.var 1])), []) ∧
    fold_variable
      (c5State.fold_statement (.directive c5Dir)).1.substitution
      (Variable.var 2) = Variable.var 1 ∧
    (dirKeys (dir_optimize ⟨[], 0,
      [.directive c5Dir, .directive c5Dir]⟩).statements).Nodup := by
  have h := C5_directive_dedup
  refine ⟨h.2.1 c5State c5Dir [Variable.var 1] rfl, ?_, ?_⟩
  · exact h.2.2.1 c5State c5Dir [Variable.var 1] rfl (by decide)
      (Variable.var 2, Variable.var 1) (by decide)
  · exact h.1 ⟨[], 0, [.directive c5Dir, .directive c5Dir]⟩


/-! ## Constant select folding (`propagation.rs`, `fold_select_expression`,
lines 926-987).  Standalone model of the match over the already-folded
array, size and index; array elements are kept opaque (`Elem`). -/

/-- An opaque array element (the `E`-expression stored in a literal
array value). -/
abbrev Elem := Nat

/-- The folded array expression's inner, restricted to the shapes the
match distinguishes: a literal value, an identifier, or anything else
(the catch-all arm). -/
inductive ArrayInner where
  | value (v : List Elem)
  | identifier (id : Ident)
  | other (tag : Nat)
deriving DecidableEq, Repr

/-- A folded `UExpression` inner as the select match sees it: a value
node carrying its span, or anything else. -/
inductive UInner where
  | value (sp : Option Span) (v : Nat)
  | other (tag : Nat)
deriving DecidableEq, Repr

/-- What an identifier can be bound to in the constants map at this
point: a literal array value, or some other constant (both
`unreachable!` arms of the source). -/
inductive SelConst where
  | arrayValue (v : List Elem)
  | nonArray (tag : Nat)
deriving DecidableEq, Repr

/-- The four result shapes of `fold_select_expression`: an inlined
element, a select over an identifier rebuilt after a constants-map miss
(index re-annotated at `B32` with a fresh span-free value node), the
catch-all rebuilt select, and the select rebuilt unchanged when the
size is not a literal. -/
inductive SelectOut where
  | expression (e : Elem)
  | exprSelect (id : Ident) (size : Nat) (n : Nat)
  | select (a : ArrayInner) (size : Nat) (i : UInner)
  | selectNonConst (a : ArrayInner) (aSize : UInner) (i : UInner)
deriving DecidableEq, Repr

/-- The derived lexicographic `PartialOrd` on
`ValueExpression { span, value }` (expressions.rs lines 108-112):
the span field is compared first (`None < Some`), the value only on
equal spans.  This is the `n < size` test of the literal-array arm. -/
def valueLt (sp1 : Option Span) (v1 : Nat) (sp2 : Option Span) (v2 : Nat) :
    Bool :=
  match sp1, sp2 with
  | none, none => v1 < v2
  | none, some _ => true
  | some _, none => false
  | some a, some b => a < b || (a == b && v1 < v2)

/-- Lookup of an identifier in the constants map fragment visible to
the select fold. -/
def selLookup (σ : List (Ident × SelConst)) (id : Ident) :
    Option SelConst :=
  (σ.find? (fun p => p.1 == id)).map (·.2)

/-- `fold_select_expression` (propagation.rs lines 941-986), after the
array and index have been folded: on a literal size, a literal array
with a literal index is inlined when `n < size` under the derived
(span-lexicographic) order — `expression_at(n.value).unwrap()` panics
if the value list is shorter — and reports `OutOfBounds(n, size)`
otherwise; an identifier with a literal index is looked up in the
constants map and, when bound to a literal array, indexed with
`expression_at(n.value).unwrap()` with no bounds check (a non-array
binding is `unreachable!`); a miss rebuilds the select; every other
shape rebuilds the select with the size-annotated array. -/
def fold_select_case (σ : List (Ident × SelConst))
    (array : ArrayInner) (aSize : UInner) (index : UInner) :
    Except Failure SelectOut :=
  match aSize with
  | .value ssp sv =>
      match array, index with
      | .value v, .value nsp n =>
          if valueLt nsp n ssp sv then
            match v.get? n with
            | some e => .ok (.expression e)
            | none => .error .panic
          else .error (.fail (.outOfBounds n sv))
      | .identifier id, .value _ n =>
          match selLookup σ id with
          | some (.arrayValue v) =>
              match v.get? n with
              | some e => .ok (.expression e)
              | none => .error .panic
          | some (.nonArray _) => .error .panic
          | none => .ok (.exprSelect id sv n)
      | a, i => .ok (.select a sv i)
  | s => .ok (.selectNonConst array s index)

/-- C7: counterexample.  With `a` bound in the constants map to the
literal one-element array `[7]` and the select `a[4]` (size annotation
1), the claim demands `Error::OutOfBounds(4, 1)`; the code's
identifier-bound arm performs no bounds check and panics on
`expression_at(4).unwrap()` instead. -/
theorem C7_select_counterexample :
    fold_select_case [(5, .arrayValue [7])] (.identifier 5)
        (.value none 1) (.value none 4) = .error .panic ∧
    fold_select_case [(5, .arrayValue [7])] (.identifier 5)
        (.value none 1) (.value none 4) ≠
      .error (.fail (.outOfBounds 4 1)) := by
  refine ⟨rfl, fun h => absurd (Except.error.inj h) (by decide)⟩

/-- C7 (amended): when the folded size and index are span-free value
nodes and the size annotation matches the literal array's length, a
literal-array select returns element `i` if `i < n` and
`Error::OutOfBounds(i, n)` if `i ≥ n`; the identifier-bound case
returns element `i` if `i` is within the bound array, but panics
(unwrap of `None`) instead of reporting `OutOfBounds` when it is not. -/
theorem fold_select_lit_red (σ : List (Ident × SelConst)) (v : List Elem)
    (ssp nsp : Option Span) (sv n : Nat) :
    fold_select_case σ (.value v) (.value ssp sv) (.value nsp n) =
      if valueLt nsp n ssp sv then
        match v.get? n with
        | some e => .ok (.expression e)
        | none => .error .panic
      else .error (.fail (.outOfBounds n sv)) := rfl

theorem fold_select_id_red (σ : List (Ident × SelConst)) (id : Ident)
    (v : List Elem) (ssp nsp : Option Span) (sv n : Nat)
    (hσ : selLookup σ id = some (.arrayValue v)) :
    fold_select_case σ (.identifier id) (.value ssp sv) (.value nsp n) =
      match v.get? n with
      | some e => .ok (.expression e)
      | none => .error .panic := by
  simp only [fold_select_case]
  rw [hσ]

/-- C7 (amended): when the folded size and index are span-free value
nodes and the size annotation matches the literal array's length, a
literal-array select returns element `i` if `i < n` and
`Error::OutOfBounds(i, n)` if `i ≥ n`; the identifier-bound case
returns element `i` if `i` is within the bound array, but panics
(unwrap of `None`) instead of reporting `OutOfBounds` when it is not. -/
theorem C7_select_fold (σ : List (Ident × SelConst)) (id : Ident)
    (v : List Elem) (n sv : Nat) (hsz : sv = v.length) :
    (n < sv →
      fold_select_case σ (.value v) (.value none sv) (.value none n) =
        .ok (.expression (v.getD n 0))) ∧
    (sv ≤ n →
      fold_select_case σ (.value v) (.value none sv) (.value none n) =
        .error (.fail (.outOfBounds n sv))) ∧
    (selLookup σ id = some (.arrayValue v) →
      (n < v.length →
        fold_select_case σ (.identifier id) (.value none sv) (.value none n) =
          .ok (.expression (v.getD n 0))) ∧
      (v.length ≤ n →
        fold_select_case σ (.identifier id) (.value none sv) (.value none n) =
          .error .panic)) := by
  subst hsz
  have hgetD : ∀ e, v.get? n = some e → v.getD n 0 = e := by
    intro e he
    rw [List.getD_eq_getElem?_getD, ← List.get?_eq_getElem?, he]
    rfl
  refine ⟨?_, ?_, ?_⟩
  · intro hlt
    rw [fold_select_lit_red,
      show valueLt none n none v.length = true from decide_eq_true hlt,
      if_pos rfl]
    cases hv : v.get? n with
    | none =>
        rw [List.get?_eq_none] at hv
        omega
    | some e => rw [hgetD e hv]
  · intro hge
    rw [fold_select_lit_red,
      show valueLt none n none v.length = false from
        decide_eq_false (by omega)]
    rfl
  · intro hσ
    constructor
    · intro hlt
      rw [fold_select_id_red σ id v none none v.length n hσ]
      cases hv : v.get? n with
      | none =>
          rw [List.get?_eq_none] at hv
          omega
      | some e => rw [hgetD e hv]
    · intro hge
      rw [fold_select_id_red σ id v none none v.length n hσ,
        List.get?_eq_none.mpr hge]

theorem C7_select_fold_witness :
    (fold_select_case [] (.value [10, 20]) (.value none 2) (.value none 1) =
      .ok (.expression 20)) ∧
    (fold_select_case [] (.value [10, 20]) (.value none 2) (.value none 5) =
      .error (.fail (.outOfBounds 5 2))) ∧
    (fold_select_case [(3, .arrayValue [10, 20])] (.identifier 3)
        (.value none 2) (.value none 1) = .ok (.expression 20)) := by
  have h1 := C7_select_fold [] 3 [10, 20] 1 2 rfl
  have h2 := C7_select_fold [(3, .arrayValue [10, 20])] 3 [10, 20] 5 2 rfl
  have h3 := C7_select_fold [(3, .arrayValue [10, 20])] 3 [10, 20] 1 2 rfl
  exact ⟨h1.1 (by decide), h2.2.1 (by decide),
    (h3.2.2 (by rfl)).1 (by decide)⟩

end ZoKrates
